import Mathlib

/-!
Verification development for the slither-icfg call-graph and ICFG builder
(`icfg.py`).  The Python program consumes a program model (contracts,
functions, CFG nodes, SlithIR operations) and derives a classified,
ordered call graph and a reduced interprocedural CFG.  Below, the data
model and the algorithmic core of `main` are embedded as executable Lean
definitions, followed by theorems about them.

Modelling conventions:
* Python object identity for CFG nodes is represented by a numeric `nid`;
  a function's node list is looked up by the function's `fid`.
* `hasattr(x, "a")` probing combined with `None` values is modelled with
  `Option` fields (`none` = attribute absent or `None`), except where the
  absent/`None` distinction changes behaviour (`Func.contract_attr`).
* Python's class hierarchy makes `LibraryCall` a subclass of
  `HighLevelCall`; the `isinstance` predicates below reproduce this.
-/

namespace SlitherICFG

/-- A contract back-reference as seen from a function (`func.contract`). -/
structure ContractInfo where
  name : String
  is_library : Bool
deriving DecidableEq, Repr

/-- A slither function object, flattened: attribute probing is modelled by
`Option` fields.  `contract_attr` models `hasattr(func, "contract")`;
`contract` is the attribute's value (`none` when absent or `None`). -/
structure Func where
  fid : Nat
  name : Option String
  full_name : Option String
  is_implemented : Bool
  signature : Option String
  contract_attr : Bool
  contract : Option ContractInfo
  entry_point : Option Nat
deriving DecidableEq, Repr

/-- A slither `Source` object: `starting_line`/`ending_line` may be absent
or `None`, the `lines` property is a (possibly empty) list, `start` is the
byte offset (absent only when the attribute is missing). -/
structure SourceMapping where
  filename : Option String
  start : Option Nat
  length : Option Nat
  starting_line : Option Nat
  ending_line : Option Nat
  lines : List Nat
deriving DecidableEq, Repr

/-- Payload common to the resolvable SlithIR call operations:
the `function` attribute (possibly `None`), the operation's own source
mapping, and its string representation. -/
structure IRCallData where
  function : Option Func
  source_mapping : Option SourceMapping
  descr : String
deriving DecidableEq, Repr

/-- A SlithIR operation, restricted to the classes the program inspects. -/
inductive IROp where
  | internalCall (d : IRCallData)
  | highLevelCall (d : IRCallData)
  | libraryCall (d : IRCallData)
  | lowLevelCall (source_mapping : Option SourceMapping) (descr : String)
  | otherOp
deriving DecidableEq, Repr

def IROp.isInternalCall : IROp → Bool
  | .internalCall _ => true
  | _ => false

/-- `isinstance(ir, HighLevelCall)`: true for `LibraryCall` operations as
well, because `LibraryCall` subclasses `HighLevelCall` in slither. -/
def IROp.isHighLevelCall : IROp → Bool
  | .highLevelCall _ => true
  | .libraryCall _ => true
  | _ => false

def IROp.isLibraryCall : IROp → Bool
  | .libraryCall _ => true
  | _ => false

def IROp.isLowLevelCall : IROp → Bool
  | .lowLevelCall _ _ => true
  | _ => false

/-- `ir.source_mapping` (absent on `otherOp`). -/
def IROp.srcMap : IROp → Option SourceMapping
  | .internalCall d => d.source_mapping
  | .highLevelCall d => d.source_mapping
  | .libraryCall d => d.source_mapping
  | .lowLevelCall sm _ => sm
  | .otherOp => none

/-- `str(ir)`. -/
def IROp.strRepr : IROp → String
  | .internalCall d => d.descr
  | .highLevelCall d => d.descr
  | .libraryCall d => d.descr
  | .lowLevelCall _ s => s
  | .otherOp => ""

/-- A CFG node: successors (`sons`) are node ids within the owning
function; `high_level_calls` / `internal_calls` / `low_level_calls` are
the legacy node-level call summary lists. -/
structure Node where
  nid : Nat
  expression : Option String
  source_mapping : Option SourceMapping
  irs : List IROp
  sons : List Nat
  high_level_calls : List (Option Func)
  internal_calls : List (Option Func)
  low_level_calls : List String
deriving DecidableEq, Repr

/-- A derived contract as iterated by `sl.contracts_derived`. -/
structure Contract where
  name : String
  functions : List Func
deriving DecidableEq, Repr

/-- The externally supplied program model.  `func_nodes` associates each
function id with the function's CFG node list (`f.nodes`). -/
structure Program where
  contracts_derived : List Contract
  func_nodes : List (Nat × List Node)
deriving DecidableEq, Repr

def Program.nodesOf (p : Program) (fid : Nat) : List Node :=
  match p.func_nodes.find? (fun x => x.fst == fid) with
  | some x => x.snd
  | none => []

/-- `all_functions`: implemented functions of derived contracts, in
contract order then function order. -/
def allFunctions (p : Program) : List Func :=
  p.contracts_derived.flatMap (fun c => c.functions.filter (fun f => f.is_implemented))

/-- One candidate test of the resolver's scan loop: accepted iff the name
matches, the candidate is implemented, and either both sides expose a
signature and it is equal, or signature information is missing on at
least one side. -/
def matchesCandidate (func f : Func) : Bool :=
  f.name == func.name && f.is_implemented &&
    (if f.signature.isSome && func.signature.isSome then f.signature == func.signature else true)

/-- `find_function_implementation`: `None` maps to `None`; an implemented
input is returned as is; otherwise, when the input carries a truthy
`contract` attribute, the derived contracts are scanned in order for the
first matching implemented candidate; with no candidate (or no contract
attribute) the input is returned unchanged. -/
def find_function_implementation (contracts : List Contract) (func : Option Func) : Option Func :=
  match func with
  | none => none
  | some fn =>
    if fn.is_implemented then some fn
    else if fn.contract_attr && fn.contract.isSome then
      match (contracts.flatMap (fun c => c.functions)).find? (matchesCandidate fn) with
      | some g => some g
      | none => some fn
    else some fn

/-- The record produced by `extract_source_mapping`. -/
structure SMInfo where
  filename : Option String
  start : Option Nat
  length : Option Nat
  starting_line : Option Nat
  ending_line : Option Nat
deriving DecidableEq, Repr

/-- `extract_source_mapping`: starting/ending line from the attributes,
falling back to the `lines` list (first element; last element for the
ending line when the list has more than one entry). -/
def extract_source_mapping (sm? : Option SourceMapping) : Option SMInfo :=
  match sm? with
  | none => none
  | some sm =>
    let se : Option Nat × Option Nat :=
      match sm.starting_line with
      | some l => (some l, sm.ending_line)
      | none =>
        match sm.lines with
        | [] => (none, sm.ending_line)
        | l :: rest =>
          match rest.getLast? with
          | some e => (some l, some e)
          | none => (some l, some l)
    some { filename := sm.filename, start := sm.start, length := sm.length,
           starting_line := se.fst, ending_line := se.snd }

/-- `get_call_site_expression(node, ir)`: the node's expression when the
expression object is present, else `str(ir)`; when called with `ir=None`
(the summary paths) the fallback is the string `"None"`, since
`hasattr(None, "__str__")` holds in Python. -/
def get_call_site_expression (node : Node) (ir : Option String) : Option String :=
  match node.expression with
  | some e => some e
  | none =>
    match ir with
    | some s => some s
    | none => some "None"

/-- `get_node_line`: starting line when present, else the first entry of
the `lines` property, else the byte `start` offset, else the constant
999999. -/
def get_node_line (n : Node) : Nat :=
  match n.source_mapping with
  | none => 999999
  | some sm =>
    match sm.starting_line with
    | some l => l
    | none =>
      match sm.lines with
      | l :: _ => l
      | [] =>
        match sm.start with
        | some s => s
        | none => 999999

/-- Python's stable `sorted(..., key=get_node_line)`. -/
def sortNodes (ns : List Node) : List Node :=
  ns.mergeSort (fun a b => decide (get_node_line a ≤ get_node_line b))

/-- Call-kind tags; the first three are the strings used by the builder,
`unknown` appears only in the defensive default of the ICFG edge tagger. -/
inductive CallType where
  | internal
  | library
  | high_level
  | unknown
deriving DecidableEq, Repr

/-- An entry of `call_sites[caller]`. -/
structure CallSiteRec where
  order : Nat
  call_type : CallType
  callee_func : Func
  call_site : Option String
  source_mapping : Option SMInfo
deriving DecidableEq, Repr

/-- An entry of `low_level_calls_by_function[caller]`. -/
structure LowLevelRec where
  order : Nat
  call_site : Option String
  source_mapping : Option SMInfo
  description : String
deriving DecidableEq, Repr

/-- Mutable state of the call-graph builder while traversing one caller:
the per-function order counter and record lists, plus the (global) coarse
edge set for this caller and the function tracking table. -/
structure BuilderState where
  call_order : Nat
  sites : List CallSiteRec
  lowlevel : List LowLevelRec
  graphEdges : List (Func × CallType)
  tracked : List Func
deriving DecidableEq, Repr

/-- `call_graph[caller][impl].add(ct)`: set semantics. -/
def addGraphEdge (g : List (Func × CallType)) (callee : Func) (ct : CallType) :
    List (Func × CallType) :=
  if (callee, ct) ∈ g then g else g ++ [(callee, ct)]

/-- `add_function_to_tracking`: register-or-lookup. -/
def addTracking (tr : List Func) (f : Func) : List Func :=
  if f ∈ tr then tr else tr ++ [f]

/-- The classification chain of the IR loop for the three resolvable
branches, returning `(call_type, callee_func)`.  A `libraryCall`
operation is matched by `isinstance(ir, HighLevelCall)` first, so it
takes the high-level branch; the dedicated `LibraryCall` branch of the
chain is unreachable.  An `internalCall` whose callee lacks the
`contract` attribute leaves `call_type` unset. -/
def classifyIR : IROp → Option CallType × Option Func
  | .internalCall d =>
    (match d.function with
     | some cf =>
       if cf.contract_attr then
         match cf.contract with
         | some c => if c.is_library then some CallType.library else some CallType.internal
         | none => some CallType.internal
       else none
     | none => none,
     d.function)
  | .highLevelCall d =>
    (match d.function with
     | some _ => some CallType.high_level
     | none => none,
     match d.function with
     | some cf => some cf
     | none => none)
  | .libraryCall d =>
    (match d.function with
     | some _ => some CallType.high_level
     | none => none,
     match d.function with
     | some cf => some cf
     | none => none)
  | .lowLevelCall _ _ => (none, none)
  | .otherOp => (none, none)

/-- The body of `if call_type and callee_func:` — resolve the callee and,
when the resolved implementation carries a usable name, register it and
record a call site and a coarse graph edge with the next order value. -/
def recordResolvedCall (contracts : List Contract) (node : Node) (ir : IROp)
    (st : BuilderState) (ct : CallType) (callee : Func) : BuilderState :=
  match find_function_implementation contracts (some callee) with
  | some impl =>
    if impl.name.isSome then
      let order := st.call_order + 1
      let smi :=
        match extract_source_mapping ir.srcMap with
        | some x => some x
        | none => extract_source_mapping node.source_mapping
      { call_order := order,
        sites := st.sites ++
          [{ order := order, call_type := ct, callee_func := impl,
             call_site := get_call_site_expression node (some ir.strRepr),
             source_mapping := smi }],
        lowlevel := st.lowlevel,
        graphEdges := addGraphEdge st.graphEdges impl ct,
        tracked := addTracking st.tracked impl }
    else st
  | none => st

/-- Processing of one SlithIR operation inside the caller traversal
(`for ir in node.all_slithir_operations()`): low-level operations are
recorded in the low-level list with the next order value; resolvable
operations are resolved, and recorded as a call site plus a coarse graph
edge when the resolved implementation carries a usable name. -/
def processIR (contracts : List Contract) (node : Node) (st : BuilderState) (ir : IROp) :
    BuilderState :=
  match ir with
  | .lowLevelCall sm descr =>
    let order := st.call_order + 1
    let smi :=
      match extract_source_mapping sm with
      | some x => some x
      | none => extract_source_mapping node.source_mapping
    { st with
      call_order := order,
      lowlevel := st.lowlevel ++
        [{ order := order, call_site := get_call_site_expression node (some descr),
           source_mapping := smi, description := descr }] }
  | _ =>
    match classifyIR ir with
    | (some ct, some callee) => recordResolvedCall contracts node ir st ct callee
    | _ => st

/-- The `call_type` computed for a node-level internal-call summary from
the resolved implementation (`"library"` iff the implementation's
contract attribute is present, truthy and flagged as a library). -/
def summaryCallType (impl : Func) : CallType :=
  if impl.contract_attr then
    match impl.contract with
    | some c => if c.is_library then CallType.library else CallType.internal
    | none => CallType.internal
  else CallType.internal

/-- Processing of one entry of `node.high_level_calls` (the node-level
fallback): skipped for `None` entries, for implementations without a
usable name, and for already-tracked `(callee, high_level)` call sites. -/
def processHLSummary (contracts : List Contract) (node : Node) (st : BuilderState)
    (call_func : Option Func) : BuilderState :=
  match call_func with
  | none => st
  | some cf =>
    match find_function_implementation contracts (some cf) with
    | some impl =>
      if impl.name.isSome then
        if ∃ cs ∈ st.sites, cs.callee_func = impl ∧ cs.call_type = CallType.high_level then st
        else
          let order := st.call_order + 1
          { call_order := order,
            sites := st.sites ++
              [{ order := order, call_type := CallType.high_level, callee_func := impl,
                 call_site := get_call_site_expression node none,
                 source_mapping := extract_source_mapping node.source_mapping }],
            lowlevel := st.lowlevel,
            graphEdges := addGraphEdge st.graphEdges impl CallType.high_level,
            tracked := addTracking st.tracked impl }
      else st
    | none => st

/-- Processing of one entry of `node.internal_calls` (the node-level
fallback), with the call type derived from the implementation. -/
def processInternalSummary (contracts : List Contract) (node : Node) (st : BuilderState)
    (call_func : Option Func) : BuilderState :=
  match call_func with
  | none => st
  | some cf =>
    match find_function_implementation contracts (some cf) with
    | some impl =>
      if impl.name.isSome then
        let ct := summaryCallType impl
        if ∃ cs ∈ st.sites, cs.callee_func = impl ∧ cs.call_type = ct then st
        else
          let order := st.call_order + 1
          { call_order := order,
            sites := st.sites ++
              [{ order := order, call_type := ct, callee_func := impl,
                 call_site := get_call_site_expression node none,
                 source_mapping := extract_source_mapping node.source_mapping }],
            lowlevel := st.lowlevel,
            graphEdges := addGraphEdge st.graphEdges impl ct,
            tracked := addTracking st.tracked impl }
      else st
    | none => st

/-- Processing of one CFG node of the caller: the IR loop, then the two
node-level summary loops (a fold over an empty list is the identity, so
the `hasattr`-and-truthiness guards need no separate branch). -/
def processNode (contracts : List Contract) (st : BuilderState) (node : Node) : BuilderState :=
  let st1 := node.irs.foldl (processIR contracts node) st
  let st2 := node.high_level_calls.foldl (processHLSummary contracts node) st1
  node.internal_calls.foldl (processInternalSummary contracts node) st2

/-- The per-caller traversal of the call-graph builder: nodes sorted by
the stable source-position key, starting from order 0 and empty record
lists (`g0`/`tr0` are the global edge set and tracking table as of this
caller). -/
def buildForCaller (contracts : List Contract) (nodes : List Node)
    (g0 : List (Func × CallType)) (tr0 : List Func) : BuilderState :=
  (sortNodes nodes).foldl (processNode contracts)
    { call_order := 0, sites := [], lowlevel := [], graphEdges := g0, tracked := tr0 }

/-- `is_call_site`: the node contains a SlithIR operation of any of the
four call classes, or carries a non-empty node-level call summary list. -/
def is_call_site (n : Node) : Bool :=
  n.irs.any (fun ir =>
    ir.isInternalCall || ir.isHighLevelCall || ir.isLibraryCall || ir.isLowLevelCall)
  || !n.high_level_calls.isEmpty
  || !n.internal_calls.isEmpty
  || !n.low_level_calls.isEmpty

/-- The node-id image of `call_site_nodes`: for every implemented
function, its entry point (when present) and every node passing
`is_call_site`. -/
def callSiteNids (p : Program) : List Nat :=
  (allFunctions p).flatMap (fun f =>
    (match f.entry_point with
     | some e => [e]
     | none => []) ++
    ((p.nodesOf f.fid).filter is_call_site).map Node.nid)

/-- An entry of `icfg_nodes` (the label string, which no claim touches,
is not modelled). -/
structure IcfgNode where
  id : Nat
  functionName : Option String
  contract : Option String
  is_entry_point : Bool
deriving DecidableEq, Repr

/-- `node_to_id` lookup. -/
def lookupId (m : List (Nat × Nat)) (nid : Nat) : Option Nat :=
  match m.find? (fun x => x.fst == nid) with
  | some x => some x.snd
  | none => none

/-- One iteration of the node-creation loop body: skip nodes outside
`call_site_nodes` and nodes that already carry an id; otherwise assign
the next sequential id and emit the `icfg_nodes` record. -/
def icfgNodeStep (p : Program) (f : Func) (acc : List IcfgNode × List (Nat × Nat))
    (n : Node) : List IcfgNode × List (Nat × Nat) :=
  if n.nid ∈ callSiteNids p then
    if (lookupId acc.snd n.nid).isSome then acc
    else
      (acc.fst ++
        [{ id := acc.snd.length,
           functionName :=
             match f.full_name with
             | some x => some x
             | none => f.name,
           contract := f.contract.map ContractInfo.name,
           is_entry_point :=
             match f.entry_point with
             | some e => e == n.nid
             | none => false }],
       acc.snd ++ [(n.nid, acc.snd.length)])
  else acc

/-- The node-creation loop: for every function in program order and every
node in node order, a node in `call_site_nodes` without an id yet gets
the next sequential id (starting at 0) and an `icfg_nodes` record. -/
def buildIcfgNodes (p : Program) : List IcfgNode × List (Nat × Nat) :=
  (allFunctions p).foldl (fun acc f =>
    (p.nodesOf f.fid).foldl (icfgNodeStep p f) acc) ([], [])

inductive EdgeType where
  | intra_procedural
  | inter_procedural
deriving DecidableEq, Repr

/-- An entry of `icfg_edges`; intra-procedural edges carry no call type. -/
structure IcfgEdge where
  src : Nat
  dst : Nat
  etype : EdgeType
  call_type : Option CallType
deriving DecidableEq, Repr

/-- `current.sons` looked up by node id within the function's node list
(an id without a node contributes no successors). -/
def sonsOf (ns : List Node) (i : Nat) : List Nat :=
  match ns.find? (fun n => n.nid == i) with
  | some n => n.sons
  | none => []

/-- The edge update performed when the BFS reaches an interesting node
`current` other than the source: when `current` carries an id, append an
intra-procedural edge unless one with the same source and destination is
already in the accumulated list. -/
def intraEdgeUpdate (ids : List (Nat × Nat)) (srcId current : Nat)
    (edges : List IcfgEdge) : List IcfgEdge :=
  match lookupId ids current with
  | some dstId =>
    if ∃ e ∈ edges, e.src = srcId ∧ e.dst = dstId ∧ e.etype = EdgeType.intra_procedural
    then edges
    else edges ++ [{ src := srcId, dst := dstId,
                     etype := EdgeType.intra_procedural, call_type := none }]
  | none => edges

/-- The BFS while-loop of the intra-procedural phase, with explicit fuel
(one unit per queue pop).  `callSite` is membership in `call_site_nodes`,
`srcNid`/`srcId` the fixed original source; popped nodes already visited
are skipped; an interesting node other than the source receives an
intra-procedural edge (deduplicated against the accumulated edge list)
and its successors are not explored; otherwise the unvisited successors
are appended to the queue.  `none` means the fuel ran out with a
non-empty queue. -/
def bfsLoop (callSite : Nat → Bool) (ids : List (Nat × Nat)) (ns : List Node)
    (srcNid srcId : Nat) :
    Nat → List Nat → List Nat → List IcfgEdge → Option (List IcfgEdge)
  | _, [], _, edges => some edges
  | 0, _ :: _, _, _ => none
  | fuel + 1, current :: rest, visited, edges =>
    if current ∈ visited then
      bfsLoop callSite ids ns srcNid srcId fuel rest visited edges
    else
      if callSite current = true ∧ current ≠ srcNid then
        bfsLoop callSite ids ns srcNid srcId fuel rest (current :: visited)
          (intraEdgeUpdate ids srcId current edges)
      else
        bfsLoop callSite ids ns srcNid srcId fuel
          (rest ++ (sonsOf ns current).filter (fun s => decide (¬ s ∈ current :: visited)))
          (current :: visited) edges

/-- Fuel sufficient for the BFS to drain its queue on any input (each
node is expanded at most once, enqueueing at most its successors). -/
def bfsFuel (ns : List Node) : Nat :=
  1 + (ns.map (fun n => 1 + n.sons.length)).sum

/-- One full BFS run from one interesting source node, threading the
global edge list (the `none` branch is unreachable: see
`bfsLoop_isSome_of_fuel`). -/
def addIntraFrom (callSite : Nat → Bool) (ids : List (Nat × Nat)) (ns : List Node)
    (srcNid srcId : Nat) (edges : List IcfgEdge) : List IcfgEdge :=
  match bfsLoop callSite ids ns srcNid srcId (bfsFuel ns) [srcNid] [] edges with
  | some es => es
  | none => edges

/-- The intra-procedural phase: for every function, run the BFS from each
of its nodes that is interesting and has an id. -/
def intraEdgesPhase (p : Program) (ids : List (Nat × Nat)) (edges0 : List IcfgEdge) :
    List IcfgEdge :=
  (allFunctions p).foldl (fun edges f =>
    let ns := p.nodesOf f.fid
    (ns.filter (fun n =>
        decide (n.nid ∈ callSiteNids p) && (lookupId ids n.nid).isSome)).foldl
      (fun edges srcN =>
        match lookupId ids srcN.nid with
        | some srcId =>
          addIntraFrom (fun i => decide (i ∈ callSiteNids p)) ids ns srcN.nid srcId edges
        | none => edges) edges) edges0

/-- The callee extracted by the inter-procedural IR chain (a
`libraryCall` is matched by the `isinstance(ir, HighLevelCall)` branch;
for a high-level operation the callee is set only when `ir.function` is
not `None`, which the `Option` already expresses). -/
def interCalleeOfIR : IROp → Option Func
  | .internalCall d => d.function
  | .highLevelCall d => d.function
  | .libraryCall d => d.function
  | .lowLevelCall _ _ => none
  | .otherOp => none

/-- The `call_type` tag of an IR-derived inter-procedural edge, computed
by re-testing `isinstance` in chain order (so a `libraryCall` is tagged
`high_level`). -/
def interCallTypeTag (ir : IROp) : CallType :=
  if ir.isInternalCall then CallType.internal
  else if ir.isHighLevelCall then CallType.high_level
  else if ir.isLibraryCall then CallType.library
  else CallType.unknown

/-- The guard chain shared by both node-level summary loops of the
inter-procedural phase: skip `None` entries, resolve the callee, follow
its entry point into `node_to_id`; the result is the resolved
implementation together with the destination node id. -/
def summaryTarget (contracts : List Contract) (ids : List (Nat × Nat))
    (call_func : Option Func) : Option (Func × Nat) :=
  match call_func with
  | none => none
  | some cf =>
    match find_function_implementation contracts (some cf) with
    | some impl =>
      match impl.entry_point with
      | some entry =>
        match lookupId ids entry with
        | some dstId => some (impl, dstId)
        | none => none
      | none => none
    | none => none

/-- The inter-procedural edge contributed by one SlithIR operation of an
interesting node: resolve the callee extracted by the chain, follow its
entry point into `node_to_id` (the same guard sequence as the summary
loops, factored into `summaryTarget`). -/
def interEdgeOfIR (contracts : List Contract) (ids : List (Nat × Nat)) (srcId : Nat)
    (ir : IROp) : Option IcfgEdge :=
  match summaryTarget contracts ids (interCalleeOfIR ir) with
  | some t =>
    some { src := srcId, dst := t.snd, etype := EdgeType.inter_procedural,
           call_type := some (interCallTypeTag ir) }
  | none => none

/-- The IR loop of the inter-procedural phase for one node: each
qualifying operation's edge is appended with no duplicate check. -/
def interIRPhaseNode (contracts : List Contract) (ids : List (Nat × Nat)) (srcId : Nat)
    (edges : List IcfgEdge) (n : Node) : List IcfgEdge :=
  n.irs.foldl (fun es ir =>
    match interEdgeOfIR contracts ids srcId ir with
    | some e => es ++ [e]
    | none => es) edges

/-- One entry of the node-level high-level summary loop of the
inter-procedural phase: the edge is added only when no inter-procedural
edge with the same source and destination exists yet. -/
def interHLSummaryStep (contracts : List Contract) (ids : List (Nat × Nat)) (srcId : Nat)
    (edges : List IcfgEdge) (call_func : Option Func) : List IcfgEdge :=
  match summaryTarget contracts ids call_func with
  | none => edges
  | some t =>
    if ∃ e ∈ edges, e.src = srcId ∧ e.dst = t.snd ∧ e.etype = EdgeType.inter_procedural
    then edges
    else edges ++ [{ src := srcId, dst := t.snd, etype := EdgeType.inter_procedural,
                     call_type := some CallType.high_level }]

/-- One entry of the node-level internal summary loop of the
inter-procedural phase (same duplicate check; the call type is derived
from the implementation's contract). -/
def interInternalSummaryStep (contracts : List Contract) (ids : List (Nat × Nat)) (srcId : Nat)
    (edges : List IcfgEdge) (call_func : Option Func) : List IcfgEdge :=
  match summaryTarget contracts ids call_func with
  | none => edges
  | some t =>
    if ∃ e ∈ edges, e.src = srcId ∧ e.dst = t.snd ∧ e.etype = EdgeType.inter_procedural
    then edges
    else edges ++ [{ src := srcId, dst := t.snd, etype := EdgeType.inter_procedural,
                     call_type := some (summaryCallType t.fst) }]

/-- The inter-procedural phase: for every node with an id, the IR loop
then the two summary loops. -/
def interEdgesPhase (p : Program) (ids : List (Nat × Nat)) (edges0 : List IcfgEdge) :
    List IcfgEdge :=
  (allFunctions p).foldl (fun edges f =>
    (p.nodesOf f.fid).foldl (fun edges n =>
      match lookupId ids n.nid with
      | none => edges
      | some srcId =>
        let e1 := interIRPhaseNode p.contracts_derived ids srcId edges n
        let e2 := n.high_level_calls.foldl
          (interHLSummaryStep p.contracts_derived ids srcId) e1
        n.internal_calls.foldl
          (interInternalSummaryStep p.contracts_derived ids srcId) e2) edges) edges0

/-- The whole ICFG construction: node/id assignment, then intra-, then
inter-procedural edges. -/
def icfgBuild (p : Program) : List IcfgNode × List (Nat × Nat) × List IcfgEdge :=
  let ni := buildIcfgNodes p
  let e1 := intraEdgesPhase p ni.snd []
  (ni.fst, ni.snd, interEdgesPhase p ni.snd e1)

/-! ## Sample data shared by concrete theorems -/

/-- A CFG node with no operations, no summaries and no location. -/
def emptyNode : Node :=
  { nid := 0, expression := none, source_mapping := none, irs := [],
    sons := [], high_level_calls := [], internal_calls := [], low_level_calls := [] }

/-- A fresh builder state (order counter 0, all lists empty). -/
def emptySt : BuilderState :=
  { call_order := 0, sites := [], lowlevel := [], graphEdges := [], tracked := [] }

/-! ## C3: call operations with an absent target function -/

/-- C3 counterexample input: a high-level call IR whose `function` field
is `None`. -/
def c3Op : IROp :=
  IROp.highLevelCall { function := none, source_mapping := none, descr := "a.f()" }

/-- C3 (counterexample): a high-level call operation whose target
Function is `None` is NOT recorded in the per-function low-level-call
list — the builder drops it entirely, leaving the state (and in
particular the empty low-level list) unchanged, contrary to the claim
that such an operation is classified and recorded as low-level. -/
theorem c3_high_level_none_not_lowlevel_cex :
    processIR [] emptyNode emptySt c3Op = emptySt ∧
    (processIR [] emptyNode emptySt c3Op).lowlevel = [] ∧
    (processIR [] emptyNode emptySt c3Op).sites = [] := by
  refine ⟨rfl, rfl, rfl⟩

/-- C3 (amended): an internal, high-level or library call IR whose target
function is `None` is never classified internal or high-level — it is
dropped entirely, producing no call site, no graph edge and no low-level
record; only an operation of the low-level IR class is recorded in the
low-level list (with the next order value and its source location), and
it never produces a call site. -/
theorem c3_none_target_amended (contracts : List Contract) (node : Node) (st : BuilderState)
    (sm : Option SourceMapping) (s : String) :
    processIR contracts node st
        (IROp.internalCall { function := none, source_mapping := sm, descr := s }) = st
    ∧ processIR contracts node st
        (IROp.highLevelCall { function := none, source_mapping := sm, descr := s }) = st
    ∧ processIR contracts node st
        (IROp.libraryCall { function := none, source_mapping := sm, descr := s }) = st
    ∧ (processIR contracts node st (IROp.lowLevelCall sm s)).lowlevel =
        st.lowlevel ++
          [{ order := st.call_order + 1,
             call_site := get_call_site_expression node (some s),
             source_mapping :=
               match extract_source_mapping sm with
               | some x => some x
               | none => extract_source_mapping node.source_mapping,
             description := s }]
    ∧ (processIR contracts node st (IROp.lowLevelCall sm s)).sites = st.sites := by
  refine ⟨rfl, rfl, rfl, rfl, rfl⟩

/-! ## C7: low-level calls contribute only a low-level record -/

/-- C7: a low-level call operation leaves the call-site list, the coarse
call-graph edge set and the tracking table untouched; it only advances
the order counter and appends one low-level record carrying that order
and the extracted source location.  Moreover the inter-procedural edge
construction produces no edge from a low-level operation. -/
theorem c7_low_level_no_edges (contracts : List Contract) (node : Node) (st : BuilderState)
    (sm : Option SourceMapping) (s : String) (ids : List (Nat × Nat)) (srcId : Nat) :
    (processIR contracts node st (IROp.lowLevelCall sm s)).sites = st.sites
    ∧ (processIR contracts node st (IROp.lowLevelCall sm s)).graphEdges = st.graphEdges
    ∧ (processIR contracts node st (IROp.lowLevelCall sm s)).tracked = st.tracked
    ∧ (processIR contracts node st (IROp.lowLevelCall sm s)).call_order = st.call_order + 1
    ∧ (processIR contracts node st (IROp.lowLevelCall sm s)).lowlevel =
        st.lowlevel ++
          [{ order := st.call_order + 1,
             call_site := get_call_site_expression node (some s),
             source_mapping :=
               match extract_source_mapping sm with
               | some x => some x
               | none => extract_source_mapping node.source_mapping,
             description := s }]
    ∧ interEdgeOfIR contracts ids srcId (IROp.lowLevelCall sm s) = none := by
  refine ⟨rfl, rfl, rfl, rfl, rfl, rfl⟩

/-! ## C9: resolvable calls whose resolved target lacks a usable name -/

/-- Helper: when the chain classifies an operation with some call type
and callee but the resolved implementation has no usable `name`
attribute, processing the operation is the identity on any state. -/
theorem processIR_drop_of_unnamed (contracts : List Contract) (node : Node) (ir : IROp)
    (ct : CallType) (callee impl : Func)
    (hcl : classifyIR ir = (some ct, some callee))
    (hfind : find_function_implementation contracts (some callee) = some impl)
    (hname : impl.name = none) :
    ∀ st : BuilderState, processIR contracts node st ir = st := by
  intro st
  cases ir with
  | lowLevelCall sm s => simp [classifyIR] at hcl
  | otherOp => simp [classifyIR] at hcl
  | internalCall d =>
    simp only [processIR]
    rw [hcl]
    show recordResolvedCall contracts node (IROp.internalCall d) st ct callee = st
    simp only [recordResolvedCall]
    rw [hfind]
    simp [hname]
  | highLevelCall d =>
    simp only [processIR]
    rw [hcl]
    show recordResolvedCall contracts node (IROp.highLevelCall d) st ct callee = st
    simp only [recordResolvedCall]
    rw [hfind]
    simp [hname]
  | libraryCall d =>
    simp only [processIR]
    rw [hcl]
    show recordResolvedCall contracts node (IROp.libraryCall d) st ct callee = st
    simp only [recordResolvedCall]
    rw [hfind]
    simp [hname]

/-- C9: a call operation classified with a kind other than low-level
whose resolved target lacks a usable name is dropped entirely — no call
site, no coarse graph edge, no low-level record, no tracking — and the
surrounding IR loop behaves as if the operation were not there, so the
remaining calls of the function are processed unaffected. -/
theorem c9_unnamed_resolved_target_dropped (contracts : List Contract) (node : Node)
    (st : BuilderState) (ir : IROp) (ct : CallType) (callee impl : Func)
    (hcl : classifyIR ir = (some ct, some callee))
    (hfind : find_function_implementation contracts (some callee) = some impl)
    (hname : impl.name = none) :
    processIR contracts node st ir = st
    ∧ ∀ l1 l2 : List IROp,
        (l1 ++ ir :: l2).foldl (processIR contracts node) st =
          (l1 ++ l2).foldl (processIR contracts node) st := by
  refine ⟨processIR_drop_of_unnamed contracts node ir ct callee impl hcl hfind hname st, ?_⟩
  intro l1 l2
  rw [List.foldl_append, List.foldl_append, List.foldl_cons,
    processIR_drop_of_unnamed contracts node ir ct callee impl hcl hfind hname]

/-- C9 witness data: an unimplemented, contract-less, unnamed callee. -/
def c9Cf : Func :=
  { fid := 7, name := none, full_name := none, is_implemented := false,
    signature := none, contract_attr := false, contract := none, entry_point := none }

def c9Op : IROp :=
  IROp.highLevelCall { function := some c9Cf, source_mapping := none, descr := "x.f()" }

/-- C9 witness: the theorem applied at a concrete operation whose target
resolves to itself and carries no name. -/
theorem c9_unnamed_resolved_target_dropped_witness :
    processIR [] emptyNode emptySt c9Op = emptySt :=
  (c9_unnamed_resolved_target_dropped [] emptyNode emptySt c9Op CallType.high_level c9Cf c9Cf
    (by decide) (by decide) rfl).1

/-! ## C5: redundant node-level summaries are suppressed -/

/-- C5: when the call-site list already holds a record with the same
resolved callee and the same call kind, processing the redundant
node-level summary (high-level or internal) returns the state unchanged:
the call-graph edge set, the call-site count, and the IR-derived record
are all untouched. -/
theorem c5_redundant_summary_noop (contracts : List Contract) (node : Node) (st : BuilderState)
    (cf impl : Func)
    (hfind : find_function_implementation contracts (some cf) = some impl) :
    ((∃ cs ∈ st.sites, cs.callee_func = impl ∧ cs.call_type = CallType.high_level) →
      processHLSummary contracts node st (some cf) = st)
    ∧ ((∃ cs ∈ st.sites, cs.callee_func = impl ∧ cs.call_type = summaryCallType impl) →
      processInternalSummary contracts node st (some cf) = st) := by
  constructor
  · intro hdup
    simp only [processHLSummary]
    rw [hfind]
    by_cases h : impl.name.isSome
    · simp [h, hdup]
    · simp [h]
  · intro hdup
    simp only [processInternalSummary]
    rw [hfind]
    by_cases h : impl.name.isSome
    · simp [h, hdup]
    · simp [h]

/-- C5 witness data: an implemented callee and a state already holding
IR-derived call sites for it with both relevant kinds. -/
def c5G : Func :=
  { fid := 3, name := some "g", full_name := some "g()", is_implemented := true,
    signature := some "g()", contract_attr := true,
    contract := some { name := "C", is_library := false }, entry_point := none }

def c5St : BuilderState :=
  { call_order := 2,
    sites :=
      [{ order := 1, call_type := CallType.high_level, callee_func := c5G,
         call_site := some "g()", source_mapping := none },
       { order := 2, call_type := CallType.internal, callee_func := c5G,
         call_site := some "g()", source_mapping := none }],
    lowlevel := [], graphEdges := [(c5G, CallType.high_level), (c5G, CallType.internal)],
    tracked := [c5G] }

/-- C5 witness: both redundant summary kinds leave the concrete state
unchanged. -/
theorem c5_redundant_summary_noop_witness :
    processHLSummary [] emptyNode c5St (some c5G) = c5St ∧
    processInternalSummary [] emptyNode c5St (some c5G) = c5St := by
  have h := c5_redundant_summary_noop [] emptyNode c5St c5G c5G (by decide)
  exact ⟨h.1 (by decide), h.2 (by decide)⟩

/-! ## C4: the function resolver -/

/-- C4 counterexample data: an unimplemented reference with no truthy
`contract` attribute, and a name-and-signature-matching implemented
candidate in the derived contracts. -/
def c4Ref : Func :=
  { fid := 10, name := some "foo", full_name := some "foo()", is_implemented := false,
    signature := some "foo()", contract_attr := false, contract := none, entry_point := none }

def c4Impl : Func :=
  { fid := 11, name := some "foo", full_name := some "foo()", is_implemented := true,
    signature := some "foo()", contract_attr := true,
    contract := some { name := "Impl", is_library := false }, entry_point := none }

def c4Contracts : List Contract := [{ name := "Impl", functions := [c4Impl] }]

/-- C4 (counterexample): for an unimplemented reference that carries no
truthy `contract` attribute the resolver skips the candidate scan and
returns the reference unchanged, even though an implemented candidate
with matching name and signature exists and would be found by the scan —
contrary to the claim that every unimplemented reference is resolved to
the first matching implemented function. -/
theorem c4_resolver_skips_scan_without_contract_cex :
    find_function_implementation c4Contracts (some c4Ref) = some c4Ref
    ∧ matchesCandidate c4Ref c4Impl = true
    ∧ (c4Contracts.flatMap (fun c => c.functions)).find? (matchesCandidate c4Ref) = some c4Impl
    ∧ c4Impl ≠ c4Ref := by
  refine ⟨rfl, rfl, rfl, by decide⟩

/-- C4 (amended): the resolver returns an implemented reference itself;
an unimplemented reference is resolved to the first implemented function
(derived contracts in encounter order, then functions in encounter
order) whose name matches, with signature equality required when both
sides expose a signature — but only when the reference carries a truthy
`contract` attribute; an unimplemented reference without one, or with no
matching candidate, is returned unchanged, and a `None` input maps to
`None`. -/
theorem c4_resolver_amended (contracts : List Contract) (fn : Func) :
    (fn.is_implemented = true → find_function_implementation contracts (some fn) = some fn)
    ∧ (fn.is_implemented = false → fn.contract_attr = true → fn.contract.isSome = true →
        find_function_implementation contracts (some fn) =
          some (((contracts.flatMap (fun c => c.functions)).find?
            (matchesCandidate fn)).getD fn))
    ∧ (fn.is_implemented = false → (fn.contract_attr = false ∨ fn.contract = none) →
        find_function_implementation contracts (some fn) = some fn)
    ∧ find_function_implementation contracts none = none := by
  refine ⟨?_, ?_, ?_, rfl⟩
  · intro h
    simp [find_function_implementation, h]
  · intro h1 h2 h3
    simp only [find_function_implementation, h1, Bool.false_eq_true, if_false, h2, h3,
      Bool.and_self, if_true]
    cases hf : (contracts.flatMap (fun c => c.functions)).find? (matchesCandidate fn) with
    | none => simp
    | some g => simp
  · intro h1 h2
    have hcond : (fn.contract_attr && fn.contract.isSome) = false := by
      cases h2 with
      | inl h => simp [h]
      | inr h => simp [h]
    simp [find_function_implementation, h1, hcond]

/-- C4 witness data: like `c4Ref` but with a truthy contract attribute,
so the scan runs and resolves it. -/
def c4Ref2 : Func :=
  { c4Ref with fid := 12, contract_attr := true,
               contract := some { name := "IFoo", is_library := false } }

/-- C4 witness: the amended theorem applied at concrete inputs covering
all three branches (implemented, unimplemented-with-contract resolved by
the scan, unimplemented-without-contract returned unchanged). -/
theorem c4_resolver_amended_witness :
    find_function_implementation c4Contracts (some c4Impl) = some c4Impl
    ∧ find_function_implementation c4Contracts (some c4Ref2) = some c4Impl
    ∧ find_function_implementation c4Contracts (some c4Ref) = some c4Ref := by
  refine ⟨(c4_resolver_amended c4Contracts c4Impl).1 (by decide), ?_,
    (c4_resolver_amended c4Contracts c4Ref).2.2.1 (by decide) (Or.inl (by decide))⟩
  have h := (c4_resolver_amended c4Contracts c4Ref2).2.1 (by decide) (by decide) (by decide)
  rw [h]
  rfl

/-! ## C8: the node sort key -/

/-- C8 counterexample data: a node with no source mapping at all, and a
node with real location data whose only key is a byte start offset of
1000000. -/
def c8NoLoc : Node := { emptyNode with nid := 1 }

def c8BigSM : SourceMapping :=
  { filename := none, start := some 1000000, length := none,
    starting_line := none, ending_line := none, lines := [] }

def c8Big : Node := { emptyNode with nid := 2, source_mapping := some c8BigSM }

/-- C8 (counterexample): the sentinel key of a node without location data
is the constant 999999, which is NOT strictly larger than every real
key: a node whose real byte start offset is 1000000 gets a larger key,
so the keyless node sorts BEFORE it, contrary to the claim that a node
with no location sorts after every node that has real location data. -/
theorem c8_sentinel_not_maximal_cex :
    get_node_line c8NoLoc = 999999
    ∧ c8Big.source_mapping.isSome = true
    ∧ get_node_line c8Big = 1000000
    ∧ sortNodes [c8Big, c8NoLoc] = [c8NoLoc, c8Big] := by
  refine ⟨by decide, by decide, by decide, ?_⟩
  simp [sortNodes, List.mergeSort, c8Big, c8BigSM, c8NoLoc, emptyNode, get_node_line]

/-- The Boolean key comparison used by `sortNodes` is transitive. -/
theorem nodeLe_trans : ∀ a b c : Node,
    decide (get_node_line a ≤ get_node_line b) = true →
    decide (get_node_line b ≤ get_node_line c) = true →
    decide (get_node_line a ≤ get_node_line c) = true := by
  intro a b c h1 h2
  simp only [decide_eq_true_eq] at h1 h2 ⊢
  omega

/-- The Boolean key comparison used by `sortNodes` is total. -/
theorem nodeLe_total : ∀ a b : Node,
    (decide (get_node_line a ≤ get_node_line b) || decide (get_node_line b ≤ get_node_line a))
      = true := by
  intro a b
  rcases Nat.le_total (get_node_line a) (get_node_line b) with h | h <;> simp [h]

/-- C8 (amended): the sort key is the starting line when present, else
the head of the `lines` list, else the byte start offset, else the
constant sentinel 999999 (so a keyless node sorts after every node whose
real key is below 999999, but not after nodes with larger real keys);
the sort is ordered by this key and stable: nodes with any given key
keep their original relative order. -/
theorem c8_sort_key_amended :
    (∀ n : Node, n.source_mapping = none → get_node_line n = 999999)
    ∧ (∀ (n : Node) (sm : SourceMapping) (l : Nat), n.source_mapping = some sm →
        sm.starting_line = some l → get_node_line n = l)
    ∧ (∀ (n : Node) (sm : SourceMapping) (l : Nat) (rest : List Nat),
        n.source_mapping = some sm → sm.starting_line = none → sm.lines = l :: rest →
        get_node_line n = l)
    ∧ (∀ (n : Node) (sm : SourceMapping) (s : Nat), n.source_mapping = some sm →
        sm.starting_line = none → sm.lines = [] → sm.start = some s → get_node_line n = s)
    ∧ (∀ (n : Node) (sm : SourceMapping), n.source_mapping = some sm →
        sm.starting_line = none → sm.lines = [] → sm.start = none → get_node_line n = 999999)
    ∧ (∀ a b : Node, get_node_line a < 999999 → b.source_mapping = none →
        get_node_line a < get_node_line b)
    ∧ (∀ l : List Node,
        List.Pairwise (fun a b => get_node_line a ≤ get_node_line b) (sortNodes l))
    ∧ (∀ (l : List Node) (k : Nat),
        (sortNodes l).filter (fun n => get_node_line n == k) =
          l.filter (fun n => get_node_line n == k)) := by
  refine ⟨?_, ?_, ?_, ?_, ?_, ?_, ?_, ?_⟩
  · intro n h
    simp [get_node_line, h]
  · intro n sm l h1 h2
    simp [get_node_line, h1, h2]
  · intro n sm l rest h1 h2 h3
    simp [get_node_line, h1, h2, h3]
  · intro n sm s h1 h2 h3 h4
    simp [get_node_line, h1, h2, h3, h4]
  · intro n sm h1 h2 h3 h4
    simp [get_node_line, h1, h2, h3, h4]
  · intro a b ha hb
    have : get_node_line b = 999999 := by simp [get_node_line, hb]
    omega
  · intro l
    have h := List.sorted_mergeSort nodeLe_trans nodeLe_total l
    exact h.imp (fun hab => by simpa using hab)
  · intro l k
    have hperm : (sortNodes l).Perm l := List.mergeSort_perm l _
    have hall : ∀ a ∈ l.filter (fun n => get_node_line n == k), get_node_line a = k := by
      intro a ha
      have := List.of_mem_filter ha
      simpa using this
    have hpw : (l.filter (fun n => get_node_line n == k)).Pairwise
        (fun a b => decide (get_node_line a ≤ get_node_line b) = true) := by
      refine List.pairwise_of_forall_mem_list ?_
      intro a ha b hb
      rw [hall a ha, hall b hb]
      simp
    have hsub : (l.filter (fun n => get_node_line n == k)).Sublist (sortNodes l) :=
      List.sublist_mergeSort nodeLe_trans nodeLe_total hpw (List.filter_sublist l)
    have hsub2 : (l.filter (fun n => get_node_line n == k)).Sublist
        ((sortNodes l).filter (fun n => get_node_line n == k)) := by
      have h2 := hsub.filter (fun n => get_node_line n == k)
      rw [List.filter_filter] at h2
      simpa only [Bool.and_self] using h2
    have hlen : ((sortNodes l).filter (fun n => get_node_line n == k)).length =
        (l.filter (fun n => get_node_line n == k)).length :=
      (hperm.filter (fun n => get_node_line n == k)).length_eq
    exact (hsub2.eq_of_length hlen.symm).symm

/-- C8 witness: the amended theorem's conditional parts applied at the
concrete nodes of the counterexample and at a node keyed by its
starting line. -/
def c8LineSM : SourceMapping :=
  { filename := none, start := some 5, length := none,
    starting_line := some 42, ending_line := some 42, lines := [42] }

def c8Line : Node := { emptyNode with nid := 3, source_mapping := some c8LineSM }

theorem c8_sort_key_amended_witness :
    get_node_line c8NoLoc = 999999
    ∧ get_node_line c8Line = 42
    ∧ get_node_line c8Big = 1000000
    ∧ get_node_line c8Line < get_node_line c8NoLoc := by
  have h := c8_sort_key_amended
  refine ⟨h.1 c8NoLoc (by decide), ?_, ?_, ?_⟩
  · exact h.2.1 c8Line c8LineSM 42 (by decide) (by decide)
  · exact h.2.2.2.1 c8Big c8BigSM 1000000 (by decide) (by decide) (by decide) (by decide)
  · have h42 : get_node_line c8Line = 42 := h.2.1 c8Line c8LineSM 42 (by decide) (by decide)
    have hlt := h.2.2.2.2.2.1 c8Line c8NoLoc (by rw [h42]; omega) (by decide)
    omega

/-! ## C10: IR-derived inter-procedural edges are appended unchecked -/

/-- Helper: the IR loop of the inter-procedural phase is a pure append of
the per-operation edges, with no duplicate check. -/
theorem interIRPhaseNode_eq_append (contracts : List Contract) (ids : List (Nat × Nat))
    (srcId : Nat) (edges : List IcfgEdge) (n : Node) :
    interIRPhaseNode contracts ids srcId edges n =
      edges ++ n.irs.filterMap (interEdgeOfIR contracts ids srcId) := by
  unfold interIRPhaseNode
  induction n.irs generalizing edges with
  | nil => simp
  | cons hd tl ih =>
    cases h : interEdgeOfIR contracts ids srcId hd with
    | none => simp [h, ih]
    | some e => simp [h, ih, List.append_assoc]

/-- Pairwise distinctness of (src, dst) among inter-procedural edges. -/
def NoDupInterPairs (edges : List IcfgEdge) : Prop :=
  List.Pairwise (fun e1 e2 =>
    ¬(e1.etype = EdgeType.inter_procedural ∧ e2.etype = EdgeType.inter_procedural ∧
      e1.src = e2.src ∧ e1.dst = e2.dst)) edges

/-- Helper: the high-level summary step checks for a prior
inter-procedural edge with the same source and destination, so it never
introduces a duplicate pair. -/
theorem interHLSummaryStep_preserves_nodup (contracts : List Contract)
    (ids : List (Nat × Nat)) (srcId : Nat) (edges : List IcfgEdge) (cf : Option Func)
    (h : NoDupInterPairs edges) :
    NoDupInterPairs (interHLSummaryStep contracts ids srcId edges cf) := by
  unfold interHLSummaryStep
  cases ht : summaryTarget contracts ids cf with
  | none => exact h
  | some t =>
    show NoDupInterPairs
      (if ∃ e ∈ edges, e.src = srcId ∧ e.dst = t.snd ∧ e.etype = EdgeType.inter_procedural
       then edges
       else edges ++ [{ src := srcId, dst := t.snd, etype := EdgeType.inter_procedural,
                        call_type := some CallType.high_level }])
    by_cases hex : ∃ e ∈ edges,
        e.src = srcId ∧ e.dst = t.snd ∧ e.etype = EdgeType.inter_procedural
    · rw [if_pos hex]
      exact h
    · rw [if_neg hex]
      refine List.pairwise_append.mpr ⟨h, List.pairwise_singleton _ _, ?_⟩
      intro e1 he1 e2 he2 hcon
      rw [List.mem_singleton] at he2
      subst he2
      exact hex ⟨e1, he1, hcon.2.2.1, hcon.2.2.2, hcon.1⟩

/-- Helper: same duplicate check for the internal summary step. -/
theorem interInternalSummaryStep_preserves_nodup (contracts : List Contract)
    (ids : List (Nat × Nat)) (srcId : Nat) (edges : List IcfgEdge) (cf : Option Func)
    (h : NoDupInterPairs edges) :
    NoDupInterPairs (interInternalSummaryStep contracts ids srcId edges cf) := by
  unfold interInternalSummaryStep
  cases ht : summaryTarget contracts ids cf with
  | none => exact h
  | some t =>
    show NoDupInterPairs
      (if ∃ e ∈ edges, e.src = srcId ∧ e.dst = t.snd ∧ e.etype = EdgeType.inter_procedural
       then edges
       else edges ++ [{ src := srcId, dst := t.snd, etype := EdgeType.inter_procedural,
                        call_type := some (summaryCallType t.fst) }])
    by_cases hex : ∃ e ∈ edges,
        e.src = srcId ∧ e.dst = t.snd ∧ e.etype = EdgeType.inter_procedural
    · rw [if_pos hex]
      exact h
    · rw [if_neg hex]
      refine List.pairwise_append.mpr ⟨h, List.pairwise_singleton _ _, ?_⟩
      intro e1 he1 e2 he2 hcon
      rw [List.mem_singleton] at he2
      subst he2
      exact hex ⟨e1, he1, hcon.2.2.1, hcon.2.2.2, hcon.1⟩

/-- C10 concrete data: one caller whose entry node holds two identical
high-level call operations resolving to the same callee entry point. -/
def c10G : Func :=
  { fid := 1, name := some "g", full_name := some "g()", is_implemented := true,
    signature := some "g()", contract_attr := true,
    contract := some { name := "B", is_library := false }, entry_point := some 10 }

def c10Op : IROp :=
  IROp.highLevelCall { function := some c10G, source_mapping := none, descr := "b.g()" }

def c10R : Func :=
  { fid := 0, name := some "r", full_name := some "r()", is_implemented := true,
    signature := some "r()", contract_attr := true,
    contract := some { name := "A", is_library := false }, entry_point := some 0 }

def c10Caller : Node := { emptyNode with nid := 0, irs := [c10Op, c10Op] }

def c10Entry : Node := { emptyNode with nid := 10 }

def c10P : Program :=
  { contracts_derived := [{ name := "A", functions := [c10R] },
                          { name := "B", functions := [c10G] }],
    func_nodes := [(0, [c10Caller]), (1, [c10Entry])] }

def c10Edge : IcfgEdge :=
  { src := 0, dst := 1, etype := EdgeType.inter_procedural,
    call_type := some CallType.high_level }

/-- C10: IR-derived inter-procedural edges are appended with no
duplicate check — the IR loop is a pure append of one edge per
qualifying operation, so a node with two identical call operations
yields the same inter_procedural edge twice in the final ICFG edge list
— while the two summary-derived loops check for a prior inter-procedural
edge with the same source and destination before inserting. -/
theorem c10_inter_ir_edges_unchecked :
    (∀ (contracts : List Contract) (ids : List (Nat × Nat)) (srcId : Nat)
        (edges : List IcfgEdge) (n : Node),
      interIRPhaseNode contracts ids srcId edges n =
        edges ++ n.irs.filterMap (interEdgeOfIR contracts ids srcId))
    ∧ (icfgBuild c10P).snd.snd = [c10Edge, c10Edge]
    ∧ (∀ (contracts : List Contract) (ids : List (Nat × Nat)) (srcId : Nat)
        (edges : List IcfgEdge) (cf : Option Func), NoDupInterPairs edges →
      NoDupInterPairs (interHLSummaryStep contracts ids srcId edges cf))
    ∧ (∀ (contracts : List Contract) (ids : List (Nat × Nat)) (srcId : Nat)
        (edges : List IcfgEdge) (cf : Option Func), NoDupInterPairs edges →
      NoDupInterPairs (interInternalSummaryStep contracts ids srcId edges cf)) := by
  refine ⟨interIRPhaseNode_eq_append, ?_, interHLSummaryStep_preserves_nodup,
    interInternalSummaryStep_preserves_nodup⟩
  decide

/-- C10 witness: the theorem's conditional parts applied at concrete
inputs (an edge list already holding the inter-procedural pair). -/
theorem c10_inter_ir_edges_unchecked_witness :
    NoDupInterPairs [c10Edge]
    ∧ NoDupInterPairs
        (interHLSummaryStep c10P.contracts_derived [(0, 0), (10, 1)] 0 [c10Edge] (some c10G))
    ∧ NoDupInterPairs
        (interInternalSummaryStep c10P.contracts_derived [(0, 0), (10, 1)] 0 [c10Edge]
          (some c10G)) := by
  have h := c10_inter_ir_edges_unchecked
  have h1 : NoDupInterPairs [c10Edge] := by
    unfold NoDupInterPairs
    exact List.pairwise_singleton _ _
  exact ⟨h1, h.2.2.1 c10P.contracts_derived [(0, 0), (10, 1)] 0 [c10Edge] (some c10G) h1,
    h.2.2.2 c10P.contracts_derived [(0, 0), (10, 1)] 0 [c10Edge] (some c10G) h1⟩

/-! ## C2: order numbers form a contiguous sequence, monotone in source
position -/

/-- The resolver never turns a present function into `None`. -/
theorem find_function_implementation_isSome (contracts : List Contract) (fn : Func) :
    ∃ g, find_function_implementation contracts (some fn) = some g := by
  unfold find_function_implementation
  by_cases h1 : fn.is_implemented
  · exact ⟨fn, by simp [h1]⟩
  · by_cases h2 : fn.contract_attr && fn.contract.isSome
    · cases hf : (contracts.flatMap (fun c => c.functions)).find? (matchesCandidate fn) with
      | none => exact ⟨fn, by simp [h1, h2, hf]⟩
      | some g => exact ⟨g, by simp [h1, h2, hf]⟩
    · exact ⟨fn, by simp [h1, h2]⟩

/-- The shape of any one builder step: either the counter and both record
lists are untouched, or the counter advances by one and exactly one
record carrying the new counter value is appended to exactly one of the
two lists. -/
def StepShape (st st2 : BuilderState) : Prop :=
  (st2.call_order = st.call_order ∧ st2.sites = st.sites ∧ st2.lowlevel = st.lowlevel)
  ∨ (st2.call_order = st.call_order + 1 ∧
      ((∃ r, st2.sites = st.sites ++ [r] ∧ r.order = st.call_order + 1 ∧
          st2.lowlevel = st.lowlevel)
       ∨ (∃ r, st2.lowlevel = st.lowlevel ++ [r] ∧ r.order = st.call_order + 1 ∧
          st2.sites = st.sites)))

theorem stepShape_recordResolvedCall (contracts : List Contract) (node : Node) (ir : IROp)
    (st : BuilderState) (ct : CallType) (callee : Func) :
    StepShape st (recordResolvedCall contracts node ir st ct callee) := by
  unfold recordResolvedCall
  cases hf : find_function_implementation contracts (some callee) with
  | none => exact Or.inl ⟨rfl, rfl, rfl⟩
  | some impl =>
    by_cases hn : impl.name.isSome
    · simp only [hn, if_true]
      exact Or.inr ⟨rfl, Or.inl ⟨_, rfl, rfl, rfl⟩⟩
    · simp only [hn, if_false]
      exact Or.inl ⟨rfl, rfl, rfl⟩

theorem stepShape_processIR (contracts : List Contract) (node : Node) (st : BuilderState)
    (ir : IROp) : StepShape st (processIR contracts node st ir) := by
  cases ir with
  | lowLevelCall sm s => exact Or.inr ⟨rfl, Or.inr ⟨_, rfl, rfl, rfl⟩⟩
  | otherOp => exact Or.inl ⟨rfl, rfl, rfl⟩
  | internalCall d =>
    show StepShape st
      (match classifyIR (IROp.internalCall d) with
       | (some ct, some callee) => recordResolvedCall contracts node (IROp.internalCall d) st ct callee
       | _ => st)
    rcases hcl : classifyIR (IROp.internalCall d) with ⟨oct, ocal⟩
    cases oct with
    | none =>
      cases ocal with
      | none => exact Or.inl ⟨rfl, rfl, rfl⟩
      | some c => exact Or.inl ⟨rfl, rfl, rfl⟩
    | some ct =>
      cases ocal with
      | none => exact Or.inl ⟨rfl, rfl, rfl⟩
      | some callee => exact stepShape_recordResolvedCall contracts node _ st ct callee
  | highLevelCall d =>
    show StepShape st
      (match classifyIR (IROp.highLevelCall d) with
       | (some ct, some callee) => recordResolvedCall contracts node (IROp.highLevelCall d) st ct callee
       | _ => st)
    rcases hcl : classifyIR (IROp.highLevelCall d) with ⟨oct, ocal⟩
    cases oct with
    | none =>
      cases ocal with
      | none => exact Or.inl ⟨rfl, rfl, rfl⟩
      | some c => exact Or.inl ⟨rfl, rfl, rfl⟩
    | some ct =>
      cases ocal with
      | none => exact Or.inl ⟨rfl, rfl, rfl⟩
      | some callee => exact stepShape_recordResolvedCall contracts node _ st ct callee
  | libraryCall d =>
    show StepShape st
      (match classifyIR (IROp.libraryCall d) with
       | (some ct, some callee) => recordResolvedCall contracts node (IROp.libraryCall d) st ct callee
       | _ => st)
    rcases hcl : classifyIR (IROp.libraryCall d) with ⟨oct, ocal⟩
    cases oct with
    | none =>
      cases ocal with
      | none => exact Or.inl ⟨rfl, rfl, rfl⟩
      | some c => exact Or.inl ⟨rfl, rfl, rfl⟩
    | some ct =>
      cases ocal with
      | none => exact Or.inl ⟨rfl, rfl, rfl⟩
      | some callee => exact stepShape_recordResolvedCall contracts node _ st ct callee

theorem stepShape_processHLSummary (contracts : List Contract) (node : Node)
    (st : BuilderState) (cf : Option Func) :
    StepShape st (processHLSummary contracts node st cf) := by
  cases cf with
  | none => exact Or.inl ⟨rfl, rfl, rfl⟩
  | some f =>
    simp only [processHLSummary]
    cases hf : find_function_implementation contracts (some f) with
    | none => exact Or.inl ⟨rfl, rfl, rfl⟩
    | some impl =>
      by_cases hn : impl.name.isSome
      · simp only [hn, if_true]
        by_cases hdup : ∃ cs ∈ st.sites, cs.callee_func = impl ∧ cs.call_type = CallType.high_level
        · rw [if_pos hdup]
          exact Or.inl ⟨rfl, rfl, rfl⟩
        · rw [if_neg hdup]
          exact Or.inr ⟨rfl, Or.inl ⟨_, rfl, rfl, rfl⟩⟩
      · simp only [hn, if_false]
        exact Or.inl ⟨rfl, rfl, rfl⟩

theorem stepShape_processInternalSummary (contracts : List Contract) (node : Node)
    (st : BuilderState) (cf : Option Func) :
    StepShape st (processInternalSummary contracts node st cf) := by
  cases cf with
  | none => exact Or.inl ⟨rfl, rfl, rfl⟩
  | some f =>
    simp only [processInternalSummary]
    cases hf : find_function_implementation contracts (some f) with
    | none => exact Or.inl ⟨rfl, rfl, rfl⟩
    | some impl =>
      by_cases hn : impl.name.isSome
      · simp only [hn, if_true]
        by_cases hdup : ∃ cs ∈ st.sites,
            cs.callee_func = impl ∧ cs.call_type = summaryCallType impl
        · rw [if_pos hdup]
          exact Or.inl ⟨rfl, rfl, rfl⟩
        · rw [if_neg hdup]
          exact Or.inr ⟨rfl, Or.inl ⟨_, rfl, rfl, rfl⟩⟩
      · simp only [hn, if_false]
        exact Or.inl ⟨rfl, rfl, rfl⟩

/-- The per-function invariant: the order values of the call sites and of
the low-level records together are exactly 1, 2, ..., call_order. -/
def OrdersContiguous (st : BuilderState) : Prop :=
  (st.sites.map CallSiteRec.order ++ st.lowlevel.map LowLevelRec.order).Perm
    (List.range' 1 st.call_order)

theorem ordersContiguous_of_stepShape {st st2 : BuilderState}
    (hs : StepShape st st2) (h : OrdersContiguous st) : OrdersContiguous st2 := by
  unfold OrdersContiguous at h ⊢
  rcases hs with ⟨hco, hsites, hlow⟩ | ⟨hco, ⟨r, hsites, hord, hlow⟩ | ⟨r, hlow, hord, hsites⟩⟩
  · rw [hco, hsites, hlow]
    exact h
  · rw [hco, hsites, hlow, List.range'_1_concat, List.map_append]
    have hmr : [r].map CallSiteRec.order = [st.call_order + 1] := by simp [hord]
    rw [hmr]
    have h5 : (1 : Nat) + st.call_order = st.call_order + 1 := Nat.add_comm 1 _
    rw [h5]
    have h1 : (st.sites.map CallSiteRec.order ++ [st.call_order + 1] ++
        st.lowlevel.map LowLevelRec.order).Perm
        (st.sites.map CallSiteRec.order ++ st.lowlevel.map LowLevelRec.order ++
          [st.call_order + 1]) := by
      rw [List.append_assoc, List.append_assoc]
      exact List.Perm.append_left _ List.perm_append_comm
    exact h1.trans (h.append_right [st.call_order + 1])
  · rw [hco, hlow, hsites, List.range'_1_concat, List.map_append, ← List.append_assoc]
    have hmr : [r].map LowLevelRec.order = [st.call_order + 1] := by simp [hord]
    rw [hmr]
    have h5 : (1 : Nat) + st.call_order = st.call_order + 1 := Nat.add_comm 1 _
    rw [h5]
    exact h.append_right [st.call_order + 1]

theorem ordersContiguous_foldl {α : Type} (step : BuilderState → α → BuilderState)
    (hstep : ∀ st a, OrdersContiguous st → OrdersContiguous (step st a)) :
    ∀ (l : List α) (st : BuilderState), OrdersContiguous st →
      OrdersContiguous (l.foldl step st) := by
  intro l
  induction l with
  | nil => intro st h; exact h
  | cons hd tl ih =>
    intro st h
    exact ih (step st hd) (hstep st hd h)

theorem ordersContiguous_processNode (contracts : List Contract) (st : BuilderState)
    (n : Node) (h : OrdersContiguous st) : OrdersContiguous (processNode contracts st n) := by
  unfold processNode
  refine ordersContiguous_foldl _ (fun st a hi => ordersContiguous_of_stepShape
    (stepShape_processInternalSummary contracts n st a) hi) _ _ ?_
  refine ordersContiguous_foldl _ (fun st a hi => ordersContiguous_of_stepShape
    (stepShape_processHLSummary contracts n st a) hi) _ _ ?_
  exact ordersContiguous_foldl _ (fun st a hi => ordersContiguous_of_stepShape
    (stepShape_processIR contracts n st a) hi) _ _ h

/-- The order counter never decreases across a node. -/
theorem call_order_mono_of_stepShape {st st2 : BuilderState} (hs : StepShape st st2) :
    st.call_order ≤ st2.call_order := by
  rcases hs with ⟨hco, _, _⟩ | ⟨hco, _⟩ <;> omega

theorem call_order_mono_foldl {α : Type} (step : BuilderState → α → BuilderState)
    (hstep : ∀ st a, StepShape st (step st a)) :
    ∀ (l : List α) (st : BuilderState), st.call_order ≤ (l.foldl step st).call_order := by
  intro l
  induction l with
  | nil => intro st; exact Nat.le_refl _
  | cons hd tl ih =>
    intro st
    exact Nat.le_trans (call_order_mono_of_stepShape (hstep st hd)) (ih (step st hd))

theorem call_order_mono_processNode (contracts : List Contract) (st : BuilderState)
    (n : Node) : st.call_order ≤ (processNode contracts st n).call_order := by
  unfold processNode
  refine Nat.le_trans ?_ (call_order_mono_foldl _
    (fun st a => stepShape_processInternalSummary contracts n st a) _ _)
  refine Nat.le_trans ?_ (call_order_mono_foldl _
    (fun st a => stepShape_processHLSummary contracts n st a) _ _)
  exact call_order_mono_foldl _ (fun st a => stepShape_processIR contracts n st a) _ _

/-- The trace step: runs the per-node builder step and additionally
records, for each order value assigned while processing this node, the
pair (order, node sort key). -/
def traceStep (contracts : List Contract) (acc : BuilderState × List (Nat × Nat)) (n : Node) :
    BuilderState × List (Nat × Nat) :=
  let st2 := processNode contracts acc.fst n
  (st2, acc.snd ++ (List.range' (acc.fst.call_order + 1)
      (st2.call_order - acc.fst.call_order)).map (fun o => (o, get_node_line n)))

/-- The assignment trace of one caller: for each order value, in
assignment sequence, the sort key of the node during whose processing it
was assigned. -/
def buildTrace (contracts : List Contract) (nodes : List Node)
    (g0 : List (Func × CallType)) (tr0 : List Func) : List (Nat × Nat) :=
  ((sortNodes nodes).foldl (traceStep contracts)
    ({ call_order := 0, sites := [], lowlevel := [], graphEdges := g0, tracked := tr0 }, [])).snd

/-- The state component of the traced fold coincides with the plain
builder fold. -/
theorem traceStep_fst (contracts : List Contract) :
    ∀ (l : List Node) (acc : BuilderState × List (Nat × Nat)),
      (l.foldl (traceStep contracts) acc).fst = l.foldl (processNode contracts) acc.fst := by
  intro l
  induction l with
  | nil => intro acc; rfl
  | cons hd tl ih => intro acc; exact ih _

/-- The orders component of the trace is exactly 1, ..., call_order in
increasing sequence. -/
theorem trace_orders (contracts : List Contract) :
    ∀ (l : List Node) (acc : BuilderState × List (Nat × Nat)),
      acc.snd.map Prod.fst = List.range' 1 acc.fst.call_order →
      (l.foldl (traceStep contracts) acc).snd.map Prod.fst =
        List.range' 1 (l.foldl (traceStep contracts) acc).fst.call_order := by
  intro l
  induction l with
  | nil => intro acc h; exact h
  | cons hd tl ih =>
    intro acc h
    refine ih _ ?_
    show (acc.snd ++ (List.range' (acc.fst.call_order + 1)
        ((processNode contracts acc.fst hd).call_order - acc.fst.call_order)).map
        (fun o => (o, get_node_line hd))).map Prod.fst =
      List.range' 1 (processNode contracts acc.fst hd).call_order
    rw [List.map_append, h, List.map_map]
    have hmono := call_order_mono_processNode contracts acc.fst hd
    have h1 : (Prod.fst ∘ fun o => (o, get_node_line hd)) = (id : Nat → Nat) := rfl
    rw [h1, List.map_id]
    have h2 : acc.fst.call_order + 1 = 1 + acc.fst.call_order := Nat.add_comm _ 1
    rw [h2, List.range'_append_1]
    congr 1
    omega

/-- Keys along the trace are non-decreasing when the nodes are processed
in non-decreasing key order. -/
theorem trace_keys (contracts : List Contract) :
    ∀ (l : List Node) (acc : BuilderState × List (Nat × Nat)),
      List.Pairwise (fun a b => get_node_line a ≤ get_node_line b) l →
      List.Pairwise (fun x y : Nat × Nat => x.snd ≤ y.snd) acc.snd →
      (∀ x ∈ acc.snd, ∀ n ∈ l, x.snd ≤ get_node_line n) →
      List.Pairwise (fun x y : Nat × Nat => x.snd ≤ y.snd)
        ((l.foldl (traceStep contracts) acc).snd) := by
  intro l
  induction l with
  | nil => intro acc _ h2 _; exact h2
  | cons hd tl ih =>
    intro acc hsort hpw hbound
    refine ih _ (List.pairwise_cons.mp hsort).2 ?_ ?_
    · show List.Pairwise _ (acc.snd ++ (List.range' (acc.fst.call_order + 1)
        ((processNode contracts acc.fst hd).call_order - acc.fst.call_order)).map
        (fun o => (o, get_node_line hd)))
      refine List.pairwise_append.mpr ⟨hpw, ?_, ?_⟩
      · refine List.pairwise_of_forall_mem_list ?_
        intro a ha b hb
        rcases List.mem_map.mp ha with ⟨oa, _, hae⟩
        rcases List.mem_map.mp hb with ⟨ob, _, hbe⟩
        rw [← hae, ← hbe]
      · intro a ha b hb
        rcases List.mem_map.mp hb with ⟨ob, _, hbe⟩
        rw [← hbe]
        exact hbound a ha hd (List.mem_cons_self hd tl)
    · intro x hx n hn
      show x.snd ≤ get_node_line n
      rcases List.mem_append.mp hx with hx1 | hx2
      · exact hbound x hx1 n (List.mem_cons_of_mem hd hn)
      · rcases List.mem_map.mp hx2 with ⟨o, _, hoe⟩
        rw [← hoe]
        exact List.rel_of_pairwise_cons hsort hn

/-- C2: in the final state of the per-caller builder, the order values of
the call sites and of the low-level records together form the contiguous
sequence 1, ..., call_order (one shared counter, no gaps, no repeats);
the assignment trace lists those orders in increasing sequence, and its
node sort keys are non-decreasing along it, i.e. the order values are
non-decreasing in the source position of the originating nodes after the
stable sort. -/
theorem c2_orders_contiguous_and_monotone (contracts : List Contract) (nodes : List Node)
    (g0 : List (Func × CallType)) (tr0 : List Func) :
    ((buildForCaller contracts nodes g0 tr0).sites.map CallSiteRec.order ++
      (buildForCaller contracts nodes g0 tr0).lowlevel.map LowLevelRec.order).Perm
        (List.range' 1 (buildForCaller contracts nodes g0 tr0).call_order)
    ∧ (buildTrace contracts nodes g0 tr0).map Prod.fst =
        List.range' 1 (buildForCaller contracts nodes g0 tr0).call_order
    ∧ List.Pairwise (fun a b : Nat => a ≤ b)
        ((buildTrace contracts nodes g0 tr0).map Prod.snd) := by
  refine ⟨?_, ?_, ?_⟩
  · unfold buildForCaller
    exact ordersContiguous_foldl _
      (fun st a hi => ordersContiguous_processNode contracts st a hi) _ _
      (by simp [OrdersContiguous])
  · unfold buildTrace buildForCaller
    have h := trace_orders contracts (sortNodes nodes)
      ({ call_order := 0, sites := [], lowlevel := [], graphEdges := g0, tracked := tr0 }, [])
      (by simp)
    rw [h, traceStep_fst]
  · unfold buildTrace
    have hsorted : List.Pairwise (fun a b => get_node_line a ≤ get_node_line b)
        (sortNodes nodes) := by
      have h := List.sorted_mergeSort nodeLe_trans nodeLe_total nodes
      exact h.imp (fun hab => by simpa using hab)
    refine List.pairwise_map.mpr ?_
    exact trace_keys contracts (sortNodes nodes) _ hsorted List.Pairwise.nil
      (fun x hx => absurd hx (List.not_mem_nil x))

/-! ## C6: interesting-node selection and id assignment -/

/-- `node_to_id` holds an id for `x` exactly when `x` is among its keys. -/
theorem lookupId_isSome_iff (m : List (Nat × Nat)) (x : Nat) :
    (lookupId m x).isSome ↔ x ∈ m.map Prod.fst := by
  unfold lookupId
  cases hf : m.find? (fun q => q.fst == x) with
  | none =>
    show (none : Option Nat).isSome ↔ x ∈ m.map Prod.fst
    rw [List.find?_eq_none] at hf
    simp only [Option.isSome_none, Bool.false_eq_true, false_iff]
    intro hx
    rcases List.mem_map.mp hx with ⟨q, hq, hqx⟩
    exact hf q hq (by simp [hqx])
  | some q =>
    show (some q.snd).isSome ↔ x ∈ m.map Prod.fst
    simp only [Option.isSome_some, true_iff]
    have h1 := List.find?_some hf
    have h2 := List.mem_of_find?_eq_some hf
    have h3 : q.fst = x := by simpa using h1
    rw [← h3]
    exact List.mem_map_of_mem Prod.fst h2

/-- Membership in the per-function entry-point contribution. -/
theorem mem_entryList {o : Option Nat} {x : Nat} :
    (x ∈ (match o with | some e => [e] | none => ([] : List Nat))) ↔ o = some x := by
  cases o with
  | none => simp
  | some e => simp [eq_comm]

/-- `call_site_nodes` membership: a node id qualifies exactly when it is
some implemented function's entry point or the id of a node passing
`is_call_site`. -/
theorem mem_callSiteNids (p : Program) (x : Nat) :
    x ∈ callSiteNids p ↔
      (∃ g ∈ allFunctions p, g.entry_point = some x) ∨
      (∃ g ∈ allFunctions p, ∃ n ∈ p.nodesOf g.fid, n.nid = x ∧ is_call_site n = true) := by
  unfold callSiteNids
  rw [List.mem_flatMap]
  constructor
  · rintro ⟨g, hg, hx⟩
    rcases List.mem_append.mp hx with h1 | h2
    · exact Or.inl ⟨g, hg, mem_entryList.mp h1⟩
    · rcases List.mem_map.mp h2 with ⟨n, hn, hnx⟩
      have hn2 := List.mem_filter.mp hn
      exact Or.inr ⟨g, hg, n, hn2.1, hnx, hn2.2⟩
  · rintro (⟨g, hg, he⟩ | ⟨g, hg, n, hn, hnx, hcs⟩)
    · exact ⟨g, hg, List.mem_append.mpr (Or.inl (mem_entryList.mpr he))⟩
    · refine ⟨g, hg, List.mem_append.mpr (Or.inr ?_)⟩
      exact List.mem_map.mpr ⟨n, List.mem_filter.mpr ⟨hn, hcs⟩, hnx⟩

/-- Keys of the id map after one node-creation step. -/
theorem icfgNodeStep_keys (p : Program) (f : Func) (acc : List IcfgNode × List (Nat × Nat))
    (n : Node) (x : Nat) :
    x ∈ (icfgNodeStep p f acc n).snd.map Prod.fst ↔
      x ∈ acc.snd.map Prod.fst ∨ (x ∈ callSiteNids p ∧ x = n.nid) := by
  unfold icfgNodeStep
  by_cases hcs : n.nid ∈ callSiteNids p
  · rw [if_pos hcs]
    by_cases hpresent : (lookupId acc.snd n.nid).isSome
    · rw [if_pos hpresent]
      constructor
      · exact Or.inl
      · rintro (h | ⟨hx1, hx2⟩)
        · exact h
        · rw [hx2]
          exact (lookupId_isSome_iff _ _).mp hpresent
    · rw [if_neg hpresent]
      show x ∈ (acc.snd ++ [(n.nid, acc.snd.length)]).map Prod.fst ↔ _
      rw [List.map_append]
      simp only [List.mem_append, List.map_cons, List.map_nil, List.mem_singleton]
      constructor
      · rintro (h | h)
        · exact Or.inl h
        · refine Or.inr ⟨?_, h⟩
          rw [h]
          exact hcs
      · rintro (h | ⟨h1, h2⟩)
        · exact Or.inl h
        · exact Or.inr h2
  · rw [if_neg hcs]
    constructor
    · exact Or.inl
    · rintro (h | ⟨h1, h2⟩)
      · exact h
      · rw [h2] at h1
        exact absurd h1 hcs

/-- Keys of the id map after the inner (per-function) node loop. -/
theorem icfgNodes_inner_keys (p : Program) (f : Func) :
    ∀ (ns : List Node) (acc : List IcfgNode × List (Nat × Nat)) (x : Nat),
      x ∈ ((ns.foldl (icfgNodeStep p f) acc).snd.map Prod.fst) ↔
        x ∈ acc.snd.map Prod.fst ∨ (x ∈ callSiteNids p ∧ ∃ n ∈ ns, x = n.nid) := by
  intro ns
  induction ns with
  | nil => intro acc x; simp
  | cons hd tl ih =>
    intro acc x
    rw [List.foldl_cons, ih, icfgNodeStep_keys]
    constructor
    · rintro ((h | ⟨h1, h2⟩) | ⟨h1, n, hn, h2⟩)
      · exact Or.inl h
      · exact Or.inr ⟨h1, hd, List.mem_cons_self hd tl, h2⟩
      · exact Or.inr ⟨h1, n, List.mem_cons_of_mem hd hn, h2⟩
    · rintro (h | ⟨h1, n, hn, h2⟩)
      · exact Or.inl (Or.inl h)
      · rcases List.mem_cons.mp hn with h3 | h3
        · refine Or.inl (Or.inr ⟨h1, ?_⟩)
          rw [h2, h3]
        · exact Or.inr ⟨h1, n, h3, h2⟩

/-- Keys of the id map after the whole node-creation loop. -/
theorem icfgNodes_keys (p : Program) :
    ∀ (fs : List Func) (acc : List IcfgNode × List (Nat × Nat)) (x : Nat),
      x ∈ ((fs.foldl (fun acc f => (p.nodesOf f.fid).foldl (icfgNodeStep p f) acc) acc).snd.map
          Prod.fst) ↔
        x ∈ acc.snd.map Prod.fst ∨
          (x ∈ callSiteNids p ∧ ∃ f ∈ fs, ∃ n ∈ p.nodesOf f.fid, x = n.nid) := by
  intro fs
  induction fs with
  | nil => intro acc x; simp
  | cons hd tl ih =>
    intro acc x
    rw [List.foldl_cons, ih, icfgNodes_inner_keys]
    constructor
    · rintro ((h | ⟨h1, n, hn, h2⟩) | ⟨h1, f, hf, n, hn, h2⟩)
      · exact Or.inl h
      · exact Or.inr ⟨h1, hd, List.mem_cons_self hd tl, n, hn, h2⟩
      · exact Or.inr ⟨h1, f, List.mem_cons_of_mem hd hf, n, hn, h2⟩
    · rintro (h | ⟨h1, f, hf, n, hn, h2⟩)
      · exact Or.inl (Or.inl h)
      · rcases List.mem_cons.mp hf with h3 | h3
        · refine Or.inl (Or.inr ⟨h1, n, ?_, h2⟩)
          rw [← h3]
          exact hn
        · exact Or.inr ⟨h1, f, h3, n, hn, h2⟩

/-- Invariant of the id map: ids are 0, 1, ... in assignment order, and
every node id carries at most one ICFG id. -/
def IdsSequential (m : List (Nat × Nat)) : Prop :=
  m.map Prod.snd = List.range m.length ∧ (m.map Prod.fst).Nodup

theorem icfgNodeStep_idsInv (p : Program) (f : Func) (acc : List IcfgNode × List (Nat × Nat))
    (n : Node) (h : IdsSequential acc.snd) : IdsSequential (icfgNodeStep p f acc n).snd := by
  unfold icfgNodeStep
  by_cases hcs : n.nid ∈ callSiteNids p
  · rw [if_pos hcs]
    by_cases hp : (lookupId acc.snd n.nid).isSome
    · rw [if_pos hp]
      exact h
    · rw [if_neg hp]
      show IdsSequential (acc.snd ++ [(n.nid, acc.snd.length)])
      constructor
      · rw [List.map_append, h.1, List.length_append]
        simp [List.range_succ]
      · rw [List.map_append]
        refine List.nodup_append.mpr ⟨h.2, List.nodup_singleton _, ?_⟩
        simp only [List.map_cons, List.map_nil]
        rw [List.disjoint_singleton]
        intro hmem
        exact hp ((lookupId_isSome_iff _ _).mpr hmem)
  · rw [if_neg hcs]
    exact h

theorem icfgNodes_inner_idsInv (p : Program) (f : Func) :
    ∀ (ns : List Node) (acc : List IcfgNode × List (Nat × Nat)),
      IdsSequential acc.snd → IdsSequential ((ns.foldl (icfgNodeStep p f) acc).snd) := by
  intro ns
  induction ns with
  | nil => intro acc h; exact h
  | cons hd tl ih =>
    intro acc h
    exact ih _ (icfgNodeStep_idsInv p f acc hd h)

theorem icfgNodes_idsInv (p : Program) :
    ∀ (fs : List Func) (acc : List IcfgNode × List (Nat × Nat)),
      IdsSequential acc.snd →
      IdsSequential
        ((fs.foldl (fun acc f => (p.nodesOf f.fid).foldl (icfgNodeStep p f) acc) acc).snd) := by
  intro fs
  induction fs with
  | nil => intro acc h; exact h
  | cons hd tl ih =>
    intro acc h
    exact ih _ (icfgNodes_inner_idsInv p hd _ _ h)

/-- C6: a node receives an ICFG node id iff it is some implemented
function's entry point or it passes `is_call_site` (i.e. carries a call
operation of any kind, including low-level, or a legacy node-level call
summary); ids are assigned sequentially from 0 in first-encounter order
(functions in program order, then nodes), each node id getting at most
one ICFG id; and every entry point that is one of its function's nodes
receives an ICFG node even when the function contains no calls.  The
injectivity hypothesis says distinct CFG nodes carry distinct ids, i.e.
node ids faithfully stand for Python object identity. -/
theorem c6_interesting_node_selection (p : Program)
    (hinj : (((allFunctions p).flatMap (fun f => p.nodesOf f.fid)).map Node.nid).Nodup) :
    ((buildIcfgNodes p).snd.map Prod.snd = List.range (buildIcfgNodes p).snd.length)
    ∧ ((buildIcfgNodes p).snd.map Prod.fst).Nodup
    ∧ (∀ f ∈ allFunctions p, ∀ n ∈ p.nodesOf f.fid,
        ((lookupId (buildIcfgNodes p).snd n.nid).isSome ↔
          ((∃ g ∈ allFunctions p, g.entry_point = some n.nid) ∨ is_call_site n = true)))
    ∧ (∀ f ∈ allFunctions p, ∀ e : Nat, f.entry_point = some e →
        e ∈ (p.nodesOf f.fid).map Node.nid → (lookupId (buildIcfgNodes p).snd e).isSome) := by
  have hids := icfgNodes_idsInv p (allFunctions p) ([], []) (by constructor <;> simp)
  refine ⟨hids.1, hids.2, ?_, ?_⟩
  · intro f hf n hn
    constructor
    · intro hs
      have hk := (lookupId_isSome_iff _ _).mp hs
      have hmem := (icfgNodes_keys p (allFunctions p) ([], []) n.nid).mp hk
      rcases hmem with h | ⟨hcs, g, hg, n2, hn2, hx⟩
      · simp at h
      rcases (mem_callSiteNids p n.nid).mp hcs with he | ⟨g3, hg3, n3, hn3, h3x, h3cs⟩
      · exact Or.inl he
      · have hmem1 : n ∈ (allFunctions p).flatMap (fun f => p.nodesOf f.fid) :=
          List.mem_flatMap.mpr ⟨f, hf, hn⟩
        have hmem3 : n3 ∈ (allFunctions p).flatMap (fun f => p.nodesOf f.fid) :=
          List.mem_flatMap.mpr ⟨g3, hg3, hn3⟩
        have heq : n3 = n := List.inj_on_of_nodup_map hinj hmem3 hmem1 h3x
        rw [← heq]
        exact Or.inr h3cs
    · rintro (⟨g, hg, he⟩ | hcs)
      · refine (lookupId_isSome_iff _ _).mpr
          ((icfgNodes_keys p (allFunctions p) ([], []) n.nid).mpr ?_)
        exact Or.inr ⟨(mem_callSiteNids p n.nid).mpr (Or.inl ⟨g, hg, he⟩), f, hf, n, hn, rfl⟩
      · refine (lookupId_isSome_iff _ _).mpr
          ((icfgNodes_keys p (allFunctions p) ([], []) n.nid).mpr ?_)
        exact Or.inr ⟨(mem_callSiteNids p n.nid).mpr (Or.inr ⟨f, hf, n, hn, rfl, hcs⟩),
          f, hf, n, hn, rfl⟩
  · intro f hf e he hemem
    rcases List.mem_map.mp hemem with ⟨n2, hn2, hn2e⟩
    refine (lookupId_isSome_iff _ _).mpr
      ((icfgNodes_keys p (allFunctions p) ([], []) e).mpr ?_)
    refine Or.inr ⟨(mem_callSiteNids p e).mpr (Or.inl ⟨f, hf, he⟩), f, hf, n2, hn2, ?_⟩
    rw [hn2e]

/-- C6 witness data: one function whose chain entry(0) → 1 → 2 has a
call only on node 2. -/
def c6N0 : Node := { emptyNode with nid := 0, sons := [1] }

def c6N1 : Node := { emptyNode with nid := 1, sons := [2] }

def c6N2 : Node := { emptyNode with nid := 2, irs := [IROp.lowLevelCall none "ll"] }

def c6F : Func :=
  { fid := 0, name := some "f", full_name := some "f()", is_implemented := true,
    signature := none, contract_attr := true,
    contract := some { name := "C", is_library := false }, entry_point := some 0 }

def c6P : Program :=
  { contracts_derived := [{ name := "C", functions := [c6F] }],
    func_nodes := [(0, [c6N0, c6N1, c6N2])] }

/-- C6 witness: the theorem applied at a concrete program — the entry
node receives an id although it carries no call, and the selection iff
holds at the call-free interior node. -/
theorem c6_interesting_node_selection_witness :
    (lookupId (buildIcfgNodes c6P).snd 0).isSome
    ∧ ((lookupId (buildIcfgNodes c6P).snd c6N1.nid).isSome ↔
        ((∃ g ∈ allFunctions c6P, g.entry_point = some c6N1.nid) ∨ is_call_site c6N1 = true)) := by
  have h := c6_interesting_node_selection c6P (by decide)
  exact ⟨h.2.2.2 c6F (by decide) 0 (by decide) (by decide),
    h.2.2.1 c6F (by decide) c6N1 (by decide)⟩

/-! ## C1: the intra-procedural reachability compression -/

/-- Termination potential of the BFS: one unit per unvisited node plus
one per successor of an unvisited node. -/
def bfsWeight (ns : List Node) (visited : List Nat) : Nat :=
  match ns with
  | [] => 0
  | n :: rest => (if n.nid ∈ visited then 0 else 1 + n.sons.length) + bfsWeight rest visited

theorem bfsWeight_cons_le (ns : List Node) (x : Nat) (visited : List Nat) :
    bfsWeight ns (x :: visited) ≤ bfsWeight ns visited := by
  induction ns with
  | nil => exact Nat.le_refl _
  | cons hd tl ih =>
    show (if hd.nid ∈ x :: visited then 0 else 1 + hd.sons.length) + bfsWeight tl (x :: visited) ≤
      (if hd.nid ∈ visited then 0 else 1 + hd.sons.length) + bfsWeight tl visited
    by_cases h : hd.nid ∈ visited
    · rw [if_pos h, if_pos (List.mem_cons_of_mem x h)]
      omega
    · rw [if_neg h]
      by_cases h2 : hd.nid ∈ x :: visited
      · rw [if_pos h2]
        omega
      · rw [if_neg h2]
        omega

theorem bfsWeight_remove (c : Nat) (visited : List Nat) (n0 : Node) :
    ∀ ns : List Node, ns.find? (fun n => n.nid == c) = some n0 → c ∉ visited →
      bfsWeight ns (c :: visited) + (1 + n0.sons.length) ≤ bfsWeight ns visited := by
  intro ns
  induction ns with
  | nil => intro hfind _; simp at hfind
  | cons hd tl ih =>
    intro hfind hc
    by_cases hhd : hd.nid = c
    · have hpos : (fun n : Node => n.nid == c) hd = true := by simp [hhd]
      rw [List.find?_cons_of_pos tl hpos] at hfind
      have hn0 : n0 = hd := by
        injection hfind with h
        exact h.symm
      show (if hd.nid ∈ c :: visited then 0 else 1 + hd.sons.length) + bfsWeight tl (c :: visited)
          + (1 + n0.sons.length) ≤
        (if hd.nid ∈ visited then 0 else 1 + hd.sons.length) + bfsWeight tl visited
      rw [hn0]
      rw [if_pos (by rw [hhd]; exact List.mem_cons_self c visited),
        if_neg (by rw [hhd]; exact hc)]
      have hW := bfsWeight_cons_le tl c visited
      omega
    · have hneg : ¬((fun n : Node => n.nid == c) hd = true) := by simp [hhd]
      rw [List.find?_cons_of_neg tl hneg] at hfind
      have hTl := ih hfind hc
      show (if hd.nid ∈ c :: visited then 0 else 1 + hd.sons.length) + bfsWeight tl (c :: visited)
          + (1 + n0.sons.length) ≤
        (if hd.nid ∈ visited then 0 else 1 + hd.sons.length) + bfsWeight tl visited
      have hiff : hd.nid ∈ c :: visited ↔ hd.nid ∈ visited := by
        simp [List.mem_cons, hhd]
      by_cases hm : hd.nid ∈ visited
      · rw [if_pos (hiff.mpr hm), if_pos hm]
        omega
      · rw [if_neg (fun h => hm (hiff.mp h)), if_neg hm]
        omega

theorem bfsWeight_nil_visited (ns : List Node) :
    bfsWeight ns [] = (ns.map (fun n => 1 + n.sons.length)).sum := by
  induction ns with
  | nil => rfl
  | cons hd tl ih =>
    show (if hd.nid ∈ ([] : List Nat) then 0 else 1 + hd.sons.length) + bfsWeight tl [] = _
    rw [if_neg (List.not_mem_nil hd.nid), ih]
    simp

/-- Fuel adequacy: with fuel at least the queue length plus the current
potential, the BFS while-loop always drains its queue — on every input,
including cyclic successor graphs, because the visited set prevents any
node from being expanded twice. -/
theorem bfsLoop_isSome_of_fuel (callSite : Nat → Bool) (ids : List (Nat × Nat))
    (ns : List Node) (srcNid srcId : Nat) :
    ∀ (fuel : Nat) (queue visited : List Nat) (edges : List IcfgEdge),
      queue.length + bfsWeight ns visited ≤ fuel →
      (bfsLoop callSite ids ns srcNid srcId fuel queue visited edges).isSome := by
  intro fuel
  induction fuel with
  | zero =>
    intro queue visited edges h
    cases queue with
    | nil => simp [bfsLoop]
    | cons a l => simp at h
  | succ fuel ih =>
    intro queue visited edges h
    cases queue with
    | nil => simp [bfsLoop]
    | cons current rest =>
      simp only [bfsLoop]
      rw [List.length_cons] at h
      by_cases hv : current ∈ visited
      · rw [if_pos hv]
        exact ih rest visited edges (by omega)
      · rw [if_neg hv]
        by_cases hcall : callSite current = true ∧ current ≠ srcNid
        · rw [if_pos hcall]
          have hW := bfsWeight_cons_le ns current visited
          exact ih rest (current :: visited) _ (by omega)
        · rw [if_neg hcall]
          refine ih _ (current :: visited) edges ?_
          rw [List.length_append]
          cases hfind : ns.find? (fun n => n.nid == current) with
          | none =>
            have hs : sonsOf ns current = [] := by
              unfold sonsOf
              rw [hfind]
            rw [hs]
            have hW := bfsWeight_cons_le ns current visited
            simp only [List.filter_nil, List.length_nil]
            omega
          | some n0 =>
            have hs : sonsOf ns current = n0.sons := by
              unfold sonsOf
              rw [hfind]
            rw [hs]
            have hfl : ((n0.sons).filter
                (fun s => decide (¬ s ∈ current :: visited))).length ≤
                n0.sons.length := List.length_filter_le _ _
            have hW := bfsWeight_remove current visited n0 ns hfind hv
            omega

/-- A forward path from `src` whose interior never crosses an
interesting node: each step leaves either `src` itself or a
non-interesting node.  A terminal `d` with `intr d = true` is therefore
the FIRST interesting node met along that path. -/
inductive CleanReach (sons : Nat → List Nat) (intr : Nat → Bool) (src : Nat) : Nat → Prop where
  | refl : CleanReach sons intr src src
  | step {a b : Nat} : CleanReach sons intr src a → (a = src ∨ intr a = false) →
      b ∈ sons a → CleanReach sons intr src b

/-- Pairwise distinctness of (src, dst) among intra-procedural edges. -/
def NoDupIntraPairs (edges : List IcfgEdge) : Prop :=
  List.Pairwise (fun e1 e2 =>
    ¬(e1.etype = EdgeType.intra_procedural ∧ e2.etype = EdgeType.intra_procedural ∧
      e1.src = e2.src ∧ e1.dst = e2.dst)) edges

/-- Every edge after the update was already present or is the freshly
appended intra-procedural edge from the source to the current node. -/
theorem intraEdgeUpdate_sound (ids : List (Nat × Nat)) (srcId current : Nat)
    (edges : List IcfgEdge) :
    ∀ e ∈ intraEdgeUpdate ids srcId current edges, e ∈ edges ∨
      (lookupId ids current = some e.dst ∧ e.src = srcId ∧
        e.etype = EdgeType.intra_procedural ∧ e.call_type = none) := by
  unfold intraEdgeUpdate
  cases hl : lookupId ids current with
  | none => exact fun e he => Or.inl he
  | some dstId =>
    show ∀ e ∈ (if ∃ e ∈ edges, e.src = srcId ∧ e.dst = dstId ∧
        e.etype = EdgeType.intra_procedural then edges
      else edges ++ [{ src := srcId, dst := dstId,
                       etype := EdgeType.intra_procedural, call_type := none }]), _
    by_cases hex : ∃ e ∈ edges, e.src = srcId ∧ e.dst = dstId ∧
        e.etype = EdgeType.intra_procedural
    · rw [if_pos hex]
      exact fun e he => Or.inl he
    · rw [if_neg hex]
      intro e he
      rcases List.mem_append.mp he with h1 | h2
      · exact Or.inl h1
      · rw [List.mem_singleton] at h2
        subst h2
        exact Or.inr ⟨rfl, rfl, rfl, rfl⟩

/-- The update never introduces a duplicate intra-procedural pair. -/
theorem intraEdgeUpdate_preserves_nodup (ids : List (Nat × Nat)) (srcId current : Nat)
    (edges : List IcfgEdge) (h : NoDupIntraPairs edges) :
    NoDupIntraPairs (intraEdgeUpdate ids srcId current edges) := by
  unfold intraEdgeUpdate
  cases hl : lookupId ids current with
  | none => exact h
  | some dstId =>
    show NoDupIntraPairs (if ∃ e ∈ edges, e.src = srcId ∧ e.dst = dstId ∧
        e.etype = EdgeType.intra_procedural then edges
      else edges ++ [{ src := srcId, dst := dstId,
                       etype := EdgeType.intra_procedural, call_type := none }])
    by_cases hex : ∃ e ∈ edges, e.src = srcId ∧ e.dst = dstId ∧
        e.etype = EdgeType.intra_procedural
    · rw [if_pos hex]
      exact h
    · rw [if_neg hex]
      refine List.pairwise_append.mpr ⟨h, List.pairwise_singleton _ _, ?_⟩
      intro e1 he1 e2 he2 hcon
      rw [List.mem_singleton] at he2
      subst he2
      exact hex ⟨e1, he1, hcon.2.2.1, hcon.2.2.2, hcon.1⟩

/-- Soundness of the BFS: every edge in the final list was in the input
list or points from the fixed source to an interesting node reachable by
a path that crosses no interesting node in between. -/
theorem bfsLoop_sound (callSite : Nat → Bool) (ids : List (Nat × Nat)) (ns : List Node)
    (srcNid srcId : Nat) :
    ∀ (fuel : Nat) (queue visited : List Nat) (edges res : List IcfgEdge),
      bfsLoop callSite ids ns srcNid srcId fuel queue visited edges = some res →
      (∀ q ∈ queue, CleanReach (sonsOf ns) callSite srcNid q) →
      ∀ e ∈ res, e ∈ edges ∨
        ∃ d, CleanReach (sonsOf ns) callSite srcNid d ∧ callSite d = true ∧ d ≠ srcNid ∧
          lookupId ids d = some e.dst ∧ e.src = srcId ∧
          e.etype = EdgeType.intra_procedural ∧ e.call_type = none := by
  intro fuel
  induction fuel with
  | zero =>
    intro queue visited edges res hrun hq e he
    cases queue with
    | nil =>
      have hres : edges = res := by
        simpa [bfsLoop] using hrun
      rw [← hres] at he
      exact Or.inl he
    | cons a l => simp [bfsLoop] at hrun
  | succ fuel ih =>
    intro queue visited edges res hrun hq e he
    cases queue with
    | nil =>
      have hres : edges = res := by
        simpa [bfsLoop] using hrun
      rw [← hres] at he
      exact Or.inl he
    | cons current rest =>
      simp only [bfsLoop] at hrun
      have hqrest : ∀ q ∈ rest, CleanReach (sonsOf ns) callSite srcNid q :=
        fun q hq' => hq q (List.mem_cons_of_mem current hq')
      have hcur : CleanReach (sonsOf ns) callSite srcNid current :=
        hq current (List.mem_cons_self current rest)
      by_cases hv : current ∈ visited
      · rw [if_pos hv] at hrun
        exact ih rest visited edges res hrun hqrest e he
      · rw [if_neg hv] at hrun
        by_cases hcall : callSite current = true ∧ current ≠ srcNid
        · rw [if_pos hcall] at hrun
          rcases ih rest (current :: visited) _ res hrun hqrest e he with hmem | hjust
          · rcases intraEdgeUpdate_sound ids srcId current edges e hmem with h1 | h2
            · exact Or.inl h1
            · exact Or.inr ⟨current, hcur, hcall.1, hcall.2, h2.1, h2.2.1, h2.2.2.1, h2.2.2.2⟩
          · exact Or.inr hjust
        · rw [if_neg hcall] at hrun
          refine ih _ (current :: visited) edges res hrun ?_ e he
          intro q hq'
          rcases List.mem_append.mp hq' with h1 | h2
          · exact hqrest q h1
          · have hqson : q ∈ sonsOf ns current := List.mem_of_mem_filter h2
            have hside : current = srcNid ∨ callSite current = false := by
              by_cases hsrc : current = srcNid
              · exact Or.inl hsrc
              · refine Or.inr ?_
                rcases Bool.eq_false_or_eq_true (callSite current) with hb | hb
                · exact absurd ⟨hb, hsrc⟩ hcall
                · exact hb
            exact CleanReach.step hcur hside hqson

/-- The BFS checks the accumulated edge list before appending, so it
never introduces two intra-procedural edges with the same source and
destination. -/
theorem bfsLoop_preserves_nodup (callSite : Nat → Bool) (ids : List (Nat × Nat))
    (ns : List Node) (srcNid srcId : Nat) :
    ∀ (fuel : Nat) (queue visited : List Nat) (edges res : List IcfgEdge),
      bfsLoop callSite ids ns srcNid srcId fuel queue visited edges = some res →
      NoDupIntraPairs edges → NoDupIntraPairs res := by
  intro fuel
  induction fuel with
  | zero =>
    intro queue visited edges res hrun h
    cases queue with
    | nil =>
      have hres : edges = res := by
        simpa [bfsLoop] using hrun
      rw [← hres]
      exact h
    | cons a l => simp [bfsLoop] at hrun
  | succ fuel ih =>
    intro queue visited edges res hrun h
    cases queue with
    | nil =>
      have hres : edges = res := by
        simpa [bfsLoop] using hrun
      rw [← hres]
      exact h
    | cons current rest =>
      simp only [bfsLoop] at hrun
      by_cases hv : current ∈ visited
      · rw [if_pos hv] at hrun
        exact ih rest visited edges res hrun h
      · rw [if_neg hv] at hrun
        by_cases hcall : callSite current = true ∧ current ≠ srcNid
        · rw [if_pos hcall] at hrun
          exact ih rest (current :: visited) _ res hrun
            (intraEdgeUpdate_preserves_nodup ids srcId current edges h)
        · rw [if_neg hcall] at hrun
          exact ih _ (current :: visited) edges res hrun h

/-- The fuel used by the pipeline always suffices (the initial potential
is exactly `bfsFuel`). -/
theorem bfsLoop_run_isSome (callSite : Nat → Bool) (ids : List (Nat × Nat)) (ns : List Node)
    (srcNid srcId : Nat) (edges : List IcfgEdge) :
    (bfsLoop callSite ids ns srcNid srcId (bfsFuel ns) [srcNid] [] edges).isSome := by
  apply bfsLoop_isSome_of_fuel
  rw [bfsWeight_nil_visited]
  unfold bfsFuel
  simp

theorem addIntraFrom_sound (callSite : Nat → Bool) (ids : List (Nat × Nat)) (ns : List Node)
    (srcNid srcId : Nat) (edges : List IcfgEdge) :
    ∀ e ∈ addIntraFrom callSite ids ns srcNid srcId edges, e ∈ edges ∨
      ∃ d, CleanReach (sonsOf ns) callSite srcNid d ∧ callSite d = true ∧ d ≠ srcNid ∧
        lookupId ids d = some e.dst ∧ e.src = srcId ∧
        e.etype = EdgeType.intra_procedural ∧ e.call_type = none := by
  unfold addIntraFrom
  cases hrun : bfsLoop callSite ids ns srcNid srcId (bfsFuel ns) [srcNid] [] edges with
  | none => exact fun e he => Or.inl he
  | some res =>
    intro e he
    have he2 : e ∈ res := he
    refine bfsLoop_sound callSite ids ns srcNid srcId (bfsFuel ns) [srcNid] [] edges res hrun
      ?_ e he2
    intro q hq
    rw [List.mem_singleton] at hq
    subst hq
    exact CleanReach.refl

theorem addIntraFrom_preserves_nodup (callSite : Nat → Bool) (ids : List (Nat × Nat))
    (ns : List Node) (srcNid srcId : Nat) (edges : List IcfgEdge)
    (h : NoDupIntraPairs edges) :
    NoDupIntraPairs (addIntraFrom callSite ids ns srcNid srcId edges) := by
  unfold addIntraFrom
  cases hrun : bfsLoop callSite ids ns srcNid srcId (bfsFuel ns) [srcNid] [] edges with
  | none => exact h
  | some res =>
    exact bfsLoop_preserves_nodup callSite ids ns srcNid srcId (bfsFuel ns) [srcNid] [] edges
      res hrun h

/-- Generic fold preservation. -/
theorem foldl_preserves {α β : Type} (P : β → Prop) (step : β → α → β)
    (hstep : ∀ b a, P b → P (step b a)) :
    ∀ (l : List α) (b : β), P b → P (l.foldl step b) := by
  intro l
  induction l with
  | nil => intro b h; exact h
  | cons hd tl ih => intro b h; exact ih _ (hstep b hd h)

theorem intraEdgesPhase_preserves_nodup (p : Program) (ids : List (Nat × Nat))
    (edges0 : List IcfgEdge) (h : NoDupIntraPairs edges0) :
    NoDupIntraPairs (intraEdgesPhase p ids edges0) := by
  unfold intraEdgesPhase
  refine foldl_preserves NoDupIntraPairs _ ?_ _ _ h
  intro edges f hP
  refine foldl_preserves NoDupIntraPairs _ ?_ _ _ hP
  intro edges2 srcN hP2
  cases hl : lookupId ids srcN.nid with
  | none => exact hP2
  | some srcId =>
    exact addIntraFrom_preserves_nodup (fun i => decide (i ∈ callSiteNids p)) ids
      (p.nodesOf f.fid) srcN.nid srcId edges2 hP2

/-- Every IR-derived inter-procedural edge is tagged inter-procedural. -/
theorem interEdgeOfIR_etype (contracts : List Contract) (ids : List (Nat × Nat))
    (srcId : Nat) (ir : IROp) (e : IcfgEdge)
    (h : interEdgeOfIR contracts ids srcId ir = some e) :
    e.etype = EdgeType.inter_procedural := by
  unfold interEdgeOfIR at h
  cases ht : summaryTarget contracts ids (interCalleeOfIR ir) with
  | none =>
    rw [ht] at h
    exact Option.noConfusion h
  | some t =>
    rw [ht] at h
    have h2 := Option.some.inj h
    rw [← h2]

/-- Appending inter-procedural edges cannot create a duplicate
intra-procedural pair. -/
theorem noDupIntra_append_inter (edges l : List IcfgEdge) (h : NoDupIntraPairs edges)
    (hl : ∀ e ∈ l, e.etype = EdgeType.inter_procedural) : NoDupIntraPairs (edges ++ l) := by
  refine List.pairwise_append.mpr ⟨h, ?_, ?_⟩
  · refine List.pairwise_of_forall_mem_list ?_
    intro a ha b hb hcon
    rcases hcon with ⟨h1, _⟩
    rw [hl a ha] at h1
    exact EdgeType.noConfusion h1
  · intro a ha b hb hcon
    rcases hcon with ⟨_, h2, _⟩
    rw [hl b hb] at h2
    exact EdgeType.noConfusion h2

/-- Saying that an edge-list transformation only appends
inter-procedural edges. -/
def AppendsInterOnly (step : List IcfgEdge → List IcfgEdge) : Prop :=
  ∃ l, step = fun edges => edges ++ l

theorem interIRPhaseNode_shape (contracts : List Contract) (ids : List (Nat × Nat))
    (srcId : Nat) (edges : List IcfgEdge) (n : Node) :
    ∃ l, interIRPhaseNode contracts ids srcId edges n = edges ++ l ∧
      ∀ e ∈ l, e.etype = EdgeType.inter_procedural := by
  refine ⟨n.irs.filterMap (interEdgeOfIR contracts ids srcId),
    interIRPhaseNode_eq_append contracts ids srcId edges n, ?_⟩
  intro e he
  rcases List.mem_filterMap.mp he with ⟨ir, _, hir⟩
  exact interEdgeOfIR_etype contracts ids srcId ir e hir

theorem interHLSummaryStep_shape (contracts : List Contract) (ids : List (Nat × Nat))
    (srcId : Nat) (edges : List IcfgEdge) (cf : Option Func) :
    ∃ l, interHLSummaryStep contracts ids srcId edges cf = edges ++ l ∧
      ∀ e ∈ l, e.etype = EdgeType.inter_procedural := by
  unfold interHLSummaryStep
  cases ht : summaryTarget contracts ids cf with
  | none => exact ⟨[], (List.append_nil edges).symm, by simp⟩
  | some t =>
    show ∃ l, (if ∃ e ∈ edges, e.src = srcId ∧ e.dst = t.snd ∧
        e.etype = EdgeType.inter_procedural then edges
      else edges ++ [{ src := srcId, dst := t.snd, etype := EdgeType.inter_procedural,
                       call_type := some CallType.high_level }]) = edges ++ l ∧ _
    by_cases hex : ∃ e ∈ edges, e.src = srcId ∧ e.dst = t.snd ∧
        e.etype = EdgeType.inter_procedural
    · rw [if_pos hex]
      exact ⟨[], (List.append_nil edges).symm, by simp⟩
    · rw [if_neg hex]
      refine ⟨[{ src := srcId, dst := t.snd, etype := EdgeType.inter_procedural,
                 call_type := some CallType.high_level }], rfl, ?_⟩
      intro e he
      rw [List.mem_singleton] at he
      rw [he]

theorem interInternalSummaryStep_shape (contracts : List Contract) (ids : List (Nat × Nat))
    (srcId : Nat) (edges : List IcfgEdge) (cf : Option Func) :
    ∃ l, interInternalSummaryStep contracts ids srcId edges cf = edges ++ l ∧
      ∀ e ∈ l, e.etype = EdgeType.inter_procedural := by
  unfold interInternalSummaryStep
  cases ht : summaryTarget contracts ids cf with
  | none => exact ⟨[], (List.append_nil edges).symm, by simp⟩
  | some t =>
    show ∃ l, (if ∃ e ∈ edges, e.src = srcId ∧ e.dst = t.snd ∧
        e.etype = EdgeType.inter_procedural then edges
      else edges ++ [{ src := srcId, dst := t.snd, etype := EdgeType.inter_procedural,
                       call_type := some (summaryCallType t.fst) }]) = edges ++ l ∧ _
    by_cases hex : ∃ e ∈ edges, e.src = srcId ∧ e.dst = t.snd ∧
        e.etype = EdgeType.inter_procedural
    · rw [if_pos hex]
      exact ⟨[], (List.append_nil edges).symm, by simp⟩
    · rw [if_neg hex]
      refine ⟨[{ src := srcId, dst := t.snd, etype := EdgeType.inter_procedural,
                 call_type := some (summaryCallType t.fst) }], rfl, ?_⟩
      intro e he
      rw [List.mem_singleton] at he
      rw [he]

/-- Composition of append-only steps over a fold. -/
theorem appendShape_foldl {α : Type} (step : List IcfgEdge → α → List IcfgEdge)
    (hstep : ∀ edges a, ∃ l, step edges a = edges ++ l ∧
      ∀ e ∈ l, e.etype = EdgeType.inter_procedural) :
    ∀ (xs : List α) (edges : List IcfgEdge), ∃ l, xs.foldl step edges = edges ++ l ∧
      ∀ e ∈ l, e.etype = EdgeType.inter_procedural := by
  intro xs
  induction xs with
  | nil => intro edges; exact ⟨[], (List.append_nil edges).symm, by simp⟩
  | cons hd tl ih =>
    intro edges
    rcases hstep edges hd with ⟨l1, h1, hl1⟩
    rcases ih (step edges hd) with ⟨l2, h2, hl2⟩
    refine ⟨l1 ++ l2, ?_, ?_⟩
    · rw [List.foldl_cons, h2, h1, List.append_assoc]
    · intro e he
      rcases List.mem_append.mp he with h | h
      · exact hl1 e h
      · exact hl2 e h

/-- The whole inter-procedural phase only appends inter-procedural
edges. -/
theorem interEdgesPhase_shape (p : Program) (ids : List (Nat × Nat))
    (edges0 : List IcfgEdge) :
    ∃ l, interEdgesPhase p ids edges0 = edges0 ++ l ∧
      ∀ e ∈ l, e.etype = EdgeType.inter_procedural := by
  unfold interEdgesPhase
  refine appendShape_foldl _ ?_ _ _
  intro edges f
  refine appendShape_foldl _ ?_ _ _
  intro edges2 n
  cases hl : lookupId ids n.nid with
  | none => exact ⟨[], (List.append_nil edges2).symm, by simp⟩
  | some srcId =>
    show ∃ l, (n.internal_calls.foldl (interInternalSummaryStep p.contracts_derived ids srcId)
      (n.high_level_calls.foldl (interHLSummaryStep p.contracts_derived ids srcId)
        (interIRPhaseNode p.contracts_derived ids srcId edges2 n))) = edges2 ++ l ∧ _
    rcases interIRPhaseNode_shape p.contracts_derived ids srcId edges2 n with ⟨l1, h1, hl1⟩
    rcases appendShape_foldl (interHLSummaryStep p.contracts_derived ids srcId)
      (fun edges cf => interHLSummaryStep_shape p.contracts_derived ids srcId edges cf)
      n.high_level_calls (interIRPhaseNode p.contracts_derived ids srcId edges2 n) with
      ⟨l2, h2, hl2⟩
    rcases appendShape_foldl (interInternalSummaryStep p.contracts_derived ids srcId)
      (fun edges cf => interInternalSummaryStep_shape p.contracts_derived ids srcId edges cf)
      n.internal_calls (n.high_level_calls.foldl
        (interHLSummaryStep p.contracts_derived ids srcId)
        (interIRPhaseNode p.contracts_derived ids srcId edges2 n)) with ⟨l3, h3, hl3⟩
    refine ⟨l1 ++ l2 ++ l3, ?_, ?_⟩
    · rw [h3, h2, h1, List.append_assoc, List.append_assoc, List.append_assoc]
    · intro e he
      rcases List.mem_append.mp he with h | h
      · rcases List.mem_append.mp h with h' | h'
        · exact hl1 e h'
        · exact hl2 e h'
      · exact hl3 e h

/-- Duplicate intra-procedural pairs never survive into the exported
edge list. -/
theorem icfgBuild_noDupIntra (p : Program) : NoDupIntraPairs (icfgBuild p).snd.snd := by
  show NoDupIntraPairs (interEdgesPhase p (buildIcfgNodes p).snd
    (intraEdgesPhase p (buildIcfgNodes p).snd []))
  rcases interEdgesPhase_shape p (buildIcfgNodes p).snd
    (intraEdgesPhase p (buildIcfgNodes p).snd []) with ⟨l, hl, hinter⟩
  rw [hl]
  exact noDupIntra_append_inter _ l
    (intraEdgesPhase_preserves_nodup p (buildIcfgNodes p).snd [] List.Pairwise.nil) hinter

/-- C1 concrete data: one function whose CFG is the chain
A(0, entry) → B(1, no call) → C(2, call) → D(3, call). -/
def chainA : Node := { emptyNode with nid := 0, sons := [1] }

def chainB : Node := { emptyNode with nid := 1, sons := [2] }

def chainC : Node :=
  { emptyNode with nid := 2, sons := [3], irs := [IROp.lowLevelCall none "c.call()"] }

def chainD : Node :=
  { emptyNode with nid := 3, sons := [], irs := [IROp.lowLevelCall none "d.call()"] }

def chainF : Func :=
  { fid := 0, name := some "f", full_name := some "f()", is_implemented := true,
    signature := some "f()", contract_attr := true,
    contract := some { name := "C", is_library := false }, entry_point := some 0 }

def pChain : Program :=
  { contracts_derived := [{ name := "C", functions := [chainF] }],
    func_nodes := [(0, [chainA, chainB, chainC, chainD])] }

def chainEdgeAC : IcfgEdge :=
  { src := 0, dst := 1, etype := EdgeType.intra_procedural, call_type := none }

def chainEdgeCD : IcfgEdge :=
  { src := 1, dst := 2, etype := EdgeType.intra_procedural, call_type := none }

/-- C1: (concrete) on the chain A(entry) → B → C(call) → D(call) the
reduction yields exactly the intra-procedural edges A→C and C→D (ids
A=0, C=1, D=2), no edge A→D, and no ICFG node for B; (general, BFS
termination) with the pipeline's fuel the BFS always drains its queue,
on any successor graph including cyclic ones, thanks to the visited set;
(general, soundness) every intra-procedural edge a BFS run adds goes
from the fixed source to an interesting node `d` reachable along a
forward path no interior node of which is interesting — so an edge is
never added past the first interesting node of a path; and (general,
dedup) the exported ICFG edge list never contains two intra-procedural
edges with the same source and destination. -/
theorem c1_reachability_compression :
    ((icfgBuild pChain).snd.snd = [chainEdgeAC, chainEdgeCD]
      ∧ (icfgBuild pChain).snd.fst = [(0, 0), (2, 1), (3, 2)]
      ∧ lookupId (icfgBuild pChain).snd.fst 1 = none)
    ∧ (∀ (callSite : Nat → Bool) (ids : List (Nat × Nat)) (ns : List Node)
        (srcNid srcId : Nat) (edges : List IcfgEdge),
        (bfsLoop callSite ids ns srcNid srcId (bfsFuel ns) [srcNid] [] edges).isSome)
    ∧ (∀ (callSite : Nat → Bool) (ids : List (Nat × Nat)) (ns : List Node)
        (srcNid srcId : Nat) (edges : List IcfgEdge),
        ∀ e ∈ addIntraFrom callSite ids ns srcNid srcId edges, e ∈ edges ∨
          ∃ d, CleanReach (sonsOf ns) callSite srcNid d ∧ callSite d = true ∧ d ≠ srcNid ∧
            lookupId ids d = some e.dst ∧ e.src = srcId ∧
            e.etype = EdgeType.intra_procedural ∧ e.call_type = none)
    ∧ (∀ p : Program, NoDupIntraPairs (icfgBuild p).snd.snd) := by
  refine ⟨⟨by decide, by decide, by decide⟩, bfsLoop_run_isSome, addIntraFrom_sound,
    icfgBuild_noDupIntra⟩

/-- C1 witness: the soundness part of the theorem applied to the
concrete chain — the edge A→C produced by the BFS from A is justified by
an interesting-interior-free path. -/
theorem c1_reachability_compression_witness :
    chainEdgeAC ∈ ([] : List IcfgEdge) ∨
      ∃ d, CleanReach (sonsOf (pChain.nodesOf 0))
          (fun i => decide (i ∈ callSiteNids pChain)) 0 d ∧
        (fun i => decide (i ∈ callSiteNids pChain)) d = true ∧ d ≠ 0 ∧
        lookupId [(0, 0), (2, 1), (3, 2)] d = some chainEdgeAC.dst ∧
        chainEdgeAC.src = 0 ∧ chainEdgeAC.etype = EdgeType.intra_procedural ∧
        chainEdgeAC.call_type = none :=
  c1_reachability_compression.2.2.1 (fun i => decide (i ∈ callSiteNids pChain))
    [(0, 0), (2, 1), (3, 2)] (pChain.nodesOf 0) 0 0 [] chainEdgeAC (by decide)

end SlitherICFG
